import Mathlib

set_option autoImplicit false

/-!
Verification of the Ironverse ownership enforcement engine
(`canonical-workflows/enforce_ownership.py`).

The Python script is a single class `IronverseEnforcer` whose state is a set
of instance attributes; we embed it as a state record `EnfState` threaded
through pure transition functions, one per method.  Paths are modelled as
their slash-separated segment lists; the registry's `files` and `folders`
dictionaries and the repository working tree are modelled as association
lists whose keys are unique (Python dictionaries cannot hold a key twice),
content as its SHA-256 digest (fingerprinting contract: equal digest iff
equal bytes), and the external git collaborator as two digest maps: the
working tree and the parent revision.
-/

namespace Ironverse

/-- A repository path, as the list of its slash-separated segments. -/
abbrev RPath := List String

/-- One entry of the registry's `files` section.  In the source a record is a
dict; the `admin_override` key, absent unless set, is modelled as a `Bool`
that is `false` when the key is absent (the script reads it with
`.get('admin_override', False)` and only ever deletes it when it is true). -/
structure FileRecord where
  owner : String
  created : String
  modified : String
  checksum : String
  admin_override : Bool
deriving DecidableEq

/-- One entry of the registry's `folders` section. -/
structure FolderRecord where
  structural_owner : String
  created : String
deriving DecidableEq

/-- Dictionary lookup on an association list (first binding of the key). -/
def alookup {β : Type} (k : RPath) : List (RPath × β) → Option β
  | [] => none
  | (k', v) :: rest => if k' = k then some v else alookup k rest

/-- Dictionary assignment `d[k] = v`: replace the binding in place, else append. -/
def upsert {β : Type} (k : RPath) (v : β) : List (RPath × β) → List (RPath × β)
  | [] => [(k, v)]
  | (k', v') :: rest => if k' = k then (k, v) :: rest else (k', v') :: upsert k v rest

/-- Dictionary deletion `del d[k]`: remove every binding of the key (a Python
dict holds a key at most once, so on the lists the script builds this is the
removal of its unique binding). -/
def eraseKey {β : Type} (k : RPath) : List (RPath × β) → List (RPath × β)
  | [] => []
  | (k', v') :: rest => if k' = k then eraseKey k rest else (k', v') :: eraseKey k rest

/-- The ownership registry: the `files` and `folders` sections of `registry.yml`. -/
structure Registry where
  files : List (RPath × FileRecord)
  folders : List (RPath × FolderRecord)
deriving DecidableEq

/-- One changed path as classified by `get_changed_files` from the git diff. -/
inductive Change where
  | added (path : RPath)
  | modified (path : RPath)
  | deleted (path : RPath)
  | renamed (old_path path : RPath)
deriving DecidableEq

/-- Python's `str.lower()` (the identities compared here are ASCII). -/
def lowerStr (s : String) : String := ⟨s.data.map Char.toLower⟩

/-- The designated administrator identity (constant `REPO_ADMIN`). -/
def REPO_ADMIN : String := "nickarrow"

/-- State of one `IronverseEnforcer` invocation.  `tree` maps each path that
exists in the working tree to its content digest; `prevRev` does the same for
the parent revision `COMMIT_SHA^` (the source of `git checkout sha^ -- path`).
`emptyDirs` lists the visible empty directories currently on disk, and
`removedDirs` the ones the hygiene pass removed in this run. -/
structure EnfState where
  commit_author : String
  now : String
  registry : Registry
  tree : List (RPath × String)
  prevRev : List (RPath × String)
  corrections_made : Bool
  files_corrected : List RPath
  registry_updated : Bool
  detected_moves : List (RPath × RPath)
  emptyDirs : List RPath
  removedDirs : List RPath
deriving DecidableEq

/-- Model of `calculate_checksum`: digest of the working-tree file; a file that cannot
be read yields `""` (the script catches the exception and returns `""`). -/
def calculate_checksum (tree : List (RPath × String)) (p : RPath) : String :=
  (alookup p tree).getD ""

/-- The walk `[path_obj.parent] + list(path_obj.parent.parents)` stopped at
`'.'`: every nonempty proper prefix of `p`, nearest parent first. -/
def ancChain (p : RPath) : List RPath :=
  ((List.range' 1 (p.length - 1)).reverse).map (fun k => p.take k)

/-- Inner loop of `get_structural_owner`: first folder on the chain that has a
record decides the answer. -/
def firstFolderOwner (folders : List (RPath × FolderRecord)) : List RPath → Option String
  | [] => none
  | f :: rest =>
    match alookup f folders with
    | some r => some r.structural_owner
    | none => firstFolderOwner folders rest

/-- Model of `get_structural_owner`: walk ancestor folders from the immediate parent to
the root and return the first recorded structural owner. -/
def get_structural_owner (reg : Registry) (p : RPath) : Option String :=
  firstFolderOwner reg.folders (ancChain p)

/-- Loop body of `register_folder_ownership`, threading the registry and the
`registry_updated` flag through the root-to-leaf folder list. -/
def register_folders (author now : String) : Registry → Bool → List RPath → Registry × Bool
  | reg, upd, [] => (reg, upd)
  | reg, upd, f :: rest =>
    if (alookup f reg.folders).isSome then register_folders author now reg upd rest
    else
      match get_structural_owner reg (f ++ ["dummy"]) with
      | some _ => register_folders author now reg upd rest
      | none =>
        register_folders author now
          { reg with folders := upsert f ⟨author, now⟩ reg.folders } true rest

/-- Model of `register_folder_ownership`: for each ancestor folder of `file_path`, from
root to leaf, create a structural-ownership record for the committing author
when the folder has no record and no ancestor owner is found. -/
def register_folder_ownership (s : EnfState) (file_path : RPath) : EnfState :=
  let folders_to_register := (ancChain file_path).reverse
  let ru := register_folders s.commit_author s.now s.registry s.registry_updated folders_to_register
  { s with registry := ru.1, registry_updated := ru.2 }

/-- Python `None` versus string rendering used in the denial reason f-string. -/
def fmtOpt : Option String → String
  | none => "None"
  | some s => s

/-- Truthiness test of the structural-rule source condition
(`source_structural_owner and source_structural_owner.lower() == author`). -/
def sourceOwnerOk (author : String) : Option String → Bool
  | some o => decide (o ≠ "" ∧ lowerStr o = lowerStr author)
  | none => false

/-- The structural-rule destination condition
(`dest_structural_owner is None or dest_structural_owner.lower() == author`). -/
def destOwnerOk (author : String) : Option String → Bool
  | none => true
  | some o => decide (lowerStr o = lowerStr author)

/-- Model of `is_move_authorized`: admin override, then content ownership, then
structural ownership of source (truthy owner) and destination. -/
def is_move_authorized (s : EnfState) (old_path new_path : RPath) : Bool × String :=
  let file_entry := alookup old_path s.registry.files
  let content_owner := lowerStr ((file_entry.map (fun e => e.owner)).getD "")
  let admin_override := (file_entry.map (fun e => e.admin_override)).getD false
  if lowerStr s.commit_author = lowerStr REPO_ADMIN ∧ admin_override = true then
    (true, "admin_override")
  else if lowerStr s.commit_author = content_owner then
    (true, "content_owner")
  else
    let source_structural_owner := get_structural_owner s.registry old_path
    let dest_structural_owner := get_structural_owner s.registry new_path
    if sourceOwnerOk s.commit_author source_structural_owner
       && destOwnerOk s.commit_author dest_structural_owner then
      (true, "structural_owner")
    else
      (false, "content_owner=" ++ content_owner ++ ", source_structural="
        ++ fmtOpt source_structural_owner ++ ", dest_structural="
        ++ fmtOpt dest_structural_owner)

/-- Model of `restore_file_from_history`: check the path out of the parent revision and
stage it, deleting it instead when the parent revision does not have it (or
when the caller says it is a new file; no call site does). -/
def restore_file_from_history (s : EnfState) (path : RPath) (is_new_file : Bool) : EnfState :=
  { s with tree :=
      if is_new_file then
        if (alookup path s.tree).isSome then eraseKey path s.tree else s.tree
      else
        match alookup path s.prevRev with
        | some content => upsert path content s.tree
        | none =>
          if (alookup path s.tree).isSome then eraseKey path s.tree else s.tree }

/-- The denial repair of `handle_modified_file` and `handle_deletion` (the
same three statements appear verbatim in both): restore the path from
history, append it to `files_corrected` and set `corrections_made`. -/
def denyRepair (s : EnfState) (path : RPath) : EnfState :=
  let s1 := restore_file_from_history s path false
  { s1 with
    files_corrected := s1.files_corrected ++ [path],
    corrections_made := true }

/-- The denial repair of `handle_rename` and `handle_detected_move` (the same
block appears verbatim in both): restore the old path, remove the new path if
it exists, append the old path to `files_corrected`, set `corrections_made`. -/
def denyRepairMove (s : EnfState) (old_path new_path : RPath) : EnfState :=
  let s1 := restore_file_from_history s old_path false
  let s2 := if (alookup new_path s1.tree).isSome
            then { s1 with tree := eraseKey new_path s1.tree } else s1
  { s2 with
    files_corrected := s2.files_corrected ++ [old_path],
    corrections_made := true }

/-- Model of `handle_new_file`: skip destinations of detected moves; otherwise register
the folder chain and record the committing author as owner. -/
def handle_new_file (s : EnfState) (path : RPath) : EnfState :=
  if s.detected_moves.any (fun m => m.2 == path) then s
  else
    let s1 := register_folder_ownership s path
    let checksum := calculate_checksum s1.tree path
    { s1 with
      registry := { s1.registry with
        files := upsert path ⟨s1.commit_author, s1.now, s1.now, checksum, false⟩ s1.registry.files },
      registry_updated := true }

/-- Model of `handle_modified_file`: unknown paths are handled as new; an unchanged
digest is a no-op; otherwise owner or admin override authorizes (consuming the
override), and anything else is restored and recorded as a correction. -/
def handle_modified_file (s : EnfState) (path : RPath) : EnfState :=
  let current_checksum := calculate_checksum s.tree path
  match alookup path s.registry.files with
  | none => handle_new_file s path
  | some file_entry =>
    if current_checksum = file_entry.checksum then s
    else
      if lowerStr s.commit_author = lowerStr file_entry.owner ∨
         (lowerStr s.commit_author = lowerStr REPO_ADMIN ∧ file_entry.admin_override = true) then
        let entry' : FileRecord :=
          { file_entry with
            admin_override :=
              if lowerStr s.commit_author = lowerStr REPO_ADMIN ∧ file_entry.admin_override = true
              then false else file_entry.admin_override,
            modified := s.now,
            checksum := current_checksum }
        { s with
          registry := { s.registry with files := upsert path entry' s.registry.files },
          registry_updated := true }
      else denyRepair s path

/-- Model of `handle_rename`: unknown sources are handled as new files at the
destination; owner or admin override authorizes, carrying the record (without
any override flag) to the destination; otherwise restore the source, delete
the destination and record one correction. -/
def handle_rename (s : EnfState) (old_path new_path : RPath) : EnfState :=
  match alookup old_path s.registry.files with
  | none => handle_new_file s new_path
  | some file_entry =>
    if lowerStr s.commit_author = lowerStr file_entry.owner ∨
       (lowerStr s.commit_author = lowerStr REPO_ADMIN ∧ file_entry.admin_override = true) then
      let checksum := calculate_checksum s.tree new_path
      let files1 := upsert new_path
        ⟨file_entry.owner, file_entry.created, s.now, checksum, false⟩ s.registry.files
      { s with
        registry := { s.registry with files := eraseKey old_path files1 },
        registry_updated := true }
    else denyRepairMove s old_path new_path

/-- Model of `handle_detected_move`: decide with `is_move_authorized`; an authorized
move registers destination folders and carries the record (owner preserved,
override flag dropped) to the destination; a denied move restores the source,
deletes the destination and records one correction. -/
def handle_detected_move (s : EnfState) (old_path new_path : RPath) : EnfState :=
  let auth := is_move_authorized s old_path new_path
  let file_entry := alookup old_path s.registry.files
  let content_owner := (file_entry.map (fun e => e.owner)).getD ""
  if auth.1 = true then
    let s1 := register_folder_ownership s new_path
    let checksum := calculate_checksum s1.tree new_path
    let created := (file_entry.map (fun e => e.created)).getD s1.now
    let files1 := upsert new_path
      ⟨content_owner, created, s1.now, checksum, false⟩ s1.registry.files
    { s1 with
      registry := { s1.registry with files := eraseKey old_path files1 },
      registry_updated := true }
  else denyRepairMove s old_path new_path

/-- Model of `handle_deletion`: detected moves are routed to `handle_detected_move`;
unknown paths are allowed; owner or admin override authorizes removal of the
record; otherwise restore and record one correction. -/
def handle_deletion (s : EnfState) (path : RPath) : EnfState :=
  match alookup path s.detected_moves with
  | some new_path => handle_detected_move s path new_path
  | none =>
    match alookup path s.registry.files with
    | none => s
    | some file_entry =>
      if lowerStr s.commit_author = lowerStr file_entry.owner ∨
         (lowerStr s.commit_author = lowerStr REPO_ADMIN ∧ file_entry.admin_override = true) then
        { s with
          registry := { s.registry with files := eraseKey path s.registry.files },
          registry_updated := true }
      else denyRepair s path

/-- Model of `process_file`: dispatch one change; additions and modifications of paths
that no longer exist in the working tree are skipped. -/
def process_file (s : EnfState) (c : Change) : EnfState :=
  match c with
  | .deleted path => handle_deletion s path
  | .renamed old_path path => handle_rename s old_path path
  | .added path =>
    if (alookup path s.tree).isSome then handle_new_file s path else s
  | .modified path =>
    if (alookup path s.tree).isSome then handle_modified_file s path else s

/-- The deleted paths of a batch, in batch order. -/
def delsOf (cf : List Change) : List RPath :=
  cf.filterMap (fun c => match c with | .deleted p => some p | _ => none)

/-- The added paths of a batch, in batch order. -/
def addsOf (cf : List Change) : List RPath :=
  cf.filterMap (fun c => match c with | .added p => some p | _ => none)

/-- Inner loop of `detect_moves`: first not-yet-matched addition that exists
on disk and whose digest equals the stored checksum. -/
def findMatch (tree : List (RPath × String)) (old_checksum : String) : List RPath → Option RPath
  | [] => none
  | a :: rest =>
    if (alookup a tree).isSome ∧ calculate_checksum tree a = old_checksum then some a
    else findMatch tree old_checksum rest

/-- Outer loop of `detect_moves` over the deletions, removing each matched
addition from the available pool. -/
def detectMovesLoop (files : List (RPath × FileRecord)) (tree : List (RPath × String)) :
    List RPath → List RPath → List (RPath × RPath)
  | [], _ => []
  | d :: ds, adds =>
    match alookup d files with
    | none => detectMovesLoop files tree ds adds
    | some r =>
      if r.checksum = "" then detectMovesLoop files tree ds adds
      else
        match findMatch tree r.checksum adds with
        | none => detectMovesLoop files tree ds adds
        | some a => (d, a) :: detectMovesLoop files tree ds (adds.filter (fun x => x != a))

/-- The pool of not-yet-matched additions (`additions` minus
`matched_additions`) left after the detection loop has processed a prefix of
the deletions; mirrors `detectMovesLoop` step for step. -/
def remainingAdds (files : List (RPath × FileRecord)) (tree : List (RPath × String)) :
    List RPath → List RPath → List RPath
  | [], adds => adds
  | d :: ds, adds =>
    match alookup d files with
    | none => remainingAdds files tree ds adds
    | some r =>
      if r.checksum = "" then remainingAdds files tree ds adds
      else
        match findMatch tree r.checksum adds with
        | none => remainingAdds files tree ds adds
        | some a => remainingAdds files tree ds (adds.filter (fun x => x != a))

/-- Model of `detect_moves`: match deletions against additions by stored checksum
(early return when either side is empty). -/
def detect_moves (s : EnfState) (cf : List Change) : List (RPath × RPath) :=
  let dels := delsOf cf
  let adds := addsOf cf
  if dels.isEmpty ∨ adds.isEmpty then []
  else detectMovesLoop s.registry.files s.tree dels adds

/-- Model of `cleanup_empty_folders`: remove every visible empty directory; removing
any counts as a correction. -/
def cleanup_empty_folders (s : EnfState) : EnfState :=
  if s.emptyDirs.isEmpty then { s with removedDirs := [] }
  else { s with removedDirs := s.emptyDirs, emptyDirs := [], corrections_made := true }

/-- Processing loop of `run` (steps 3 to 6) over the changed files. -/
def processList (s : EnfState) (cf : List Change) : EnfState :=
  cf.foldl process_file s

/-- Author name, author email and subject of the triggering commit, as
reported by `git log -1`; `none` models a failing git invocation. -/
structure CommitMeta where
  author_name : String
  author_email : String
  message : String
deriving DecidableEq

/-- Model of `is_guardian_commit`: fixed bot identity and message starting with the
fixed marker. -/
def is_guardian_commit (meta : Option CommitMeta) : Bool :=
  match meta with
  | none => false
  | some m =>
    (m.author_name == "Guardian Bot" && m.author_email == "guardian@ironverse.bot")
      && "Guardian:".data.isPrefixOf m.message.data

/-- Model of `is_enforcement_commit` (defined in the script but never called). -/
def is_enforcement_commit (meta : Option CommitMeta) : Bool :=
  match meta with
  | none => false
  | some m =>
    (m.author_name == "Ironverse Enforcer" && m.author_email == "actions@github.com")
      && (m.message == "Enforced ownership rules")

/-- Model of `run`: guard against guardian restoration commits, early return on an
empty batch, then move detection, per-file processing and folder hygiene.
Persisting the registry and issuing the correction commit are the external
effects gated on `registry_updated` and `corrections_made` of the result. -/
def run (meta : Option CommitMeta) (cf : List Change) (s : EnfState) : EnfState :=
  if is_guardian_commit meta then s
  else if cf.isEmpty then s
  else
    let s1 := { s with detected_moves := detect_moves s cf }
    let s2 := processList s1 cf
    cleanup_empty_folders s2

/-- What `load_registry` finds at `REGISTRY_PATH`: no file, a file YAML cannot
parse, or a parsed document in which either top-level section may be absent
(`yaml.safe_load` of an empty file yields `None`, modelled as both absent). -/
inductive RegistryFile where
  | missing
  | unparseable
  | parsed (files : Option (List (RPath × FileRecord)))
           (folders : Option (List (RPath × FolderRecord)))
deriving DecidableEq

/-- Model of `load_registry`: missing or unparseable files fail soft to the empty
registry; a parsed document has absent sections filled with empty maps. -/
def load_registry : RegistryFile → Registry
  | .missing => ⟨[], []⟩
  | .unparseable => ⟨[], []⟩
  | .parsed fs fo => ⟨fs.getD [], fo.getD []⟩

/-- The paths one change mentions (for a rename, its source and target). -/
def cpaths : Change → List RPath
  | .added path => [path]
  | .modified path => [path]
  | .deleted path => [path]
  | .renamed old_path path => [old_path, path]

/-- All paths a batch mentions.  A git diff names every path at most once, so
batches produced by `get_changed_files` have this list duplicate-free. -/
def batchPaths (cf : List Change) : List RPath :=
  (cf.map cpaths).flatten

/-- A fresh invocation over the on-disk state a previous run left behind: the
new enforcer instance starts with clean accumulators and a new timestamp,
re-reads the saved registry, and finds the same working tree, parent
revision, author and empty-directory state. -/
def freshRun (s : EnfState) (now2 : String) : EnfState :=
  { s with
    corrections_made := false, files_corrected := [], registry_updated := false,
    detected_moves := [], removedDirs := [], now := now2 }

/-- The shape a change has when the repository state already reflects it: a
deletion or rename source with no record, a modification whose digest matches
the stored checksum, or any addition.  Changes of this shape are exactly the
ones the engine processes without a repair. -/
def okChange (files : List (RPath × FileRecord)) (tree : List (RPath × String)) :
    Change → Prop
  | .added _ => True
  | .modified path => (alookup path tree).isSome = true →
      ∀ e, alookup path files = some e → calculate_checksum tree path = e.checksum
  | .deleted path => alookup path files = none
  | .renamed old_path _ => alookup old_path files = none

/-- Concrete state exercising all four denial branches of
`c5_denied_change_repairs`. -/
def c5State : EnfState :=
  { commit_author := "bob", now := "t1",
    registry := ⟨[(["notes.md"], ⟨"alice", "t0", "t0", "d1", false⟩),
                  (["old.md"], ⟨"alice", "t0", "t0", "d3", false⟩),
                  (["olddir", "b.md"], ⟨"alice", "t0", "t0", "d4", false⟩),
                  (["del.md"], ⟨"alice", "t0", "t0", "d5", false⟩)], []⟩,
    tree := [(["notes.md"], "d2"), (["moved.md"], "d3"), (["newdir", "b.md"], "d4")],
    prevRev := [(["notes.md"], "d1"), (["old.md"], "d3"),
                (["olddir", "b.md"], "d4"), (["del.md"], "d5")],
    corrections_made := false, files_corrected := [], registry_updated := false,
    detected_moves := [(["old.md"], ["moved.md"])], emptyDirs := [], removedDirs := [] }

/-- Concrete state for `c10_unregistered_path_never_denied`: empty registry,
arbitrary actor. -/
def c10State : EnfState :=
  { commit_author := "mallory", now := "t1", registry := ⟨[], []⟩,
    tree := [(["a.md"], "d1"), (["b.md"], "d2")], prevRev := [],
    corrections_made := false, files_corrected := [], registry_updated := false,
    detected_moves := [], emptyDirs := [], removedDirs := [] }

/-- State refuting C1 on native renames: `bob` is the structural owner of
folder `x` and folder `y` has no structural owner; `x/a.md` is owned by
`alice` and carries no override. -/
def c1State : EnfState :=
  { commit_author := "bob", now := "t1",
    registry := ⟨[(["x", "a.md"], ⟨"alice", "t0", "t0", "d1", false⟩)],
                 [(["x"], ⟨"bob", "t0"⟩)]⟩,
    tree := [(["y", "a.md"], "d1")], prevRev := [(["x", "a.md"], "d1")],
    corrections_made := false, files_corrected := [], registry_updated := false,
    detected_moves := [], emptyDirs := [], removedDirs := [] }

/-- State refuting C4: `carol` adds `a/b/new.md` into an empty registry. -/
def c4State : EnfState :=
  { commit_author := "carol", now := "t1", registry := ⟨[], []⟩,
    tree := [(["a", "b", "new.md"], "d7")], prevRev := [],
    corrections_made := false, files_corrected := [], registry_updated := false,
    detected_moves := [], emptyDirs := [], removedDirs := [] }

/-- Concrete state for `c3_admin_override_single_use`: `notes.md` owned by
`alice` with the override flag set, edited by `NickArrow`; `old.md`, also
flagged, is detected as moved to `moved.md`. -/
def c3State : EnfState :=
  { commit_author := "NickArrow", now := "t1",
    registry := ⟨[(["notes.md"], ⟨"alice", "t0", "t0", "d1", true⟩),
                  (["old.md"], ⟨"alice", "t0", "t0", "d3", true⟩)], []⟩,
    tree := [(["notes.md"], "d2"), (["moved.md"], "d3")],
    prevRev := [(["notes.md"], "d1"), (["old.md"], "d3")],
    corrections_made := false, files_corrected := [], registry_updated := false,
    detected_moves := [(["old.md"], ["moved.md"])], emptyDirs := [], removedDirs := [] }

/-- State for the C2 witness: `a.md` (stored checksum `D`) is deleted and
`b.md` with digest `D` is added in the same batch. -/
def c2State : EnfState :=
  { commit_author := "bob", now := "t1",
    registry := ⟨[(["a.md"], ⟨"alice", "t0", "t0", "D", false⟩)], []⟩,
    tree := [(["b.md"], "D")], prevRev := [(["a.md"], "D")],
    corrections_made := false, files_corrected := [], registry_updated := false,
    detected_moves := [], emptyDirs := [], removedDirs := [] }

/-- State whose first run is completed but corrective: actor `bob` deleted
`del.md`, a file registered to `alice` with no override, so the run denies the
deletion and restores the file.  The path is still registered afterwards, so
a same-trigger re-run re-processes the same deletion and denies it again. -/
def c6CounterState : EnfState :=
  { commit_author := "bob", now := "t1",
    registry := ⟨[(["del.md"], ⟨"alice", "t0", "t0", "d5", false⟩)], []⟩,
    tree := [], prevRev := [(["del.md"], "d5")],
    corrections_made := false, files_corrected := [], registry_updated := false,
    detected_moves := [], emptyDirs := [], removedDirs := [] }

/-! ### Basic dictionary lemmas -/

theorem alookup_upsert {β : Type} (k : RPath) (v : β) (l : List (RPath × β)) (q : RPath) :
    alookup q (upsert k v l) = if k = q then some v else alookup q l := by
  induction l with
  | nil => by_cases h : k = q <;> simp [upsert, alookup, h]
  | cons hd tl ih =>
    obtain ⟨k', v'⟩ := hd
    by_cases h1 : k' = k
    · subst h1
      by_cases h2 : k' = q <;> simp [upsert, alookup, h2]
    · by_cases h2 : k' = q
      · subst h2
        have : ¬ k = k' := fun h => h1 h.symm
        simp [upsert, alookup, h1, this]
      · simp [upsert, alookup, h1, h2, ih]

theorem alookup_eraseKey {β : Type} (k : RPath) (l : List (RPath × β)) (q : RPath) :
    alookup q (eraseKey k l) = if k = q then none else alookup q l := by
  induction l with
  | nil => by_cases h : k = q <;> simp [eraseKey, alookup, h]
  | cons hd tl ih =>
    obtain ⟨k', v'⟩ := hd
    by_cases h1 : k' = k
    · by_cases h2 : k = q
      · rw [h2] at ih
        simp only [if_pos rfl] at ih
        simp [eraseKey, alookup, h1, h2, ih]
      · have h3 : k' ≠ q := fun hq => h2 (h1.symm.trans hq)
        simp [eraseKey, alookup, h1, h2, h3, ih]
    · by_cases h2 : k' = q
      · have h3 : k ≠ q := fun hk => h1 (h2.trans hk.symm)
        have h4 : ¬ q = k := fun hk => h1 (h2.trans hk)
        simp [eraseKey, alookup, h1, h2, h3, h4]
      · simp [eraseKey, alookup, h1, h2, ih]

theorem alookup_eraseKey_self {β : Type} (k : RPath) (l : List (RPath × β)) :
    alookup k (eraseKey k l) = none := by
  simp [alookup_eraseKey]

/-! ### Frame facts about the helper operations -/

theorem register_folders_files (author now : String) (fs : List RPath)
    (reg : Registry) (upd : Bool) :
    (register_folders author now reg upd fs).1.files = reg.files := by
  induction fs generalizing reg upd with
  | nil => rfl
  | cons f rest ih =>
    unfold register_folders
    by_cases h : (alookup f reg.folders).isSome
    · simp [h, ih]
    · simp [h]
      cases get_structural_owner reg (f ++ ["dummy"]) <;> simp [ih]

theorem register_folder_ownership_files (s : EnfState) (p : RPath) :
    (register_folder_ownership s p).registry.files = s.registry.files := by
  unfold register_folder_ownership
  simp [register_folders_files]

@[simp] theorem restore_registry (s : EnfState) (p : RPath) (b : Bool) :
    (restore_file_from_history s p b).registry = s.registry := rfl

@[simp] theorem restore_files_corrected (s : EnfState) (p : RPath) (b : Bool) :
    (restore_file_from_history s p b).files_corrected = s.files_corrected := rfl

@[simp] theorem restore_corrections_made (s : EnfState) (p : RPath) (b : Bool) :
    (restore_file_from_history s p b).corrections_made = s.corrections_made := rfl

@[simp] theorem restore_prevRev (s : EnfState) (p : RPath) (b : Bool) :
    (restore_file_from_history s p b).prevRev = s.prevRev := rfl

@[simp] theorem restore_commit_author (s : EnfState) (p : RPath) (b : Bool) :
    (restore_file_from_history s p b).commit_author = s.commit_author := rfl

@[simp] theorem restore_now (s : EnfState) (p : RPath) (b : Bool) :
    (restore_file_from_history s p b).now = s.now := rfl

@[simp] theorem restore_detected_moves (s : EnfState) (p : RPath) (b : Bool) :
    (restore_file_from_history s p b).detected_moves = s.detected_moves := rfl

@[simp] theorem restore_registry_updated (s : EnfState) (p : RPath) (b : Bool) :
    (restore_file_from_history s p b).registry_updated = s.registry_updated := rfl

@[simp] theorem restore_emptyDirs (s : EnfState) (p : RPath) (b : Bool) :
    (restore_file_from_history s p b).emptyDirs = s.emptyDirs := rfl

@[simp] theorem restore_removedDirs (s : EnfState) (p : RPath) (b : Bool) :
    (restore_file_from_history s p b).removedDirs = s.removedDirs := rfl

/-- After `restore_file_from_history` the restored path holds exactly what the
parent revision holds (present there: restored; absent there: deleted). -/
theorem restore_tree_self (s : EnfState) (p : RPath) :
    alookup p (restore_file_from_history s p false).tree = alookup p s.prevRev := by
  unfold restore_file_from_history
  cases h : alookup p s.prevRev with
  | some c => simp [alookup_upsert]
  | none =>
    by_cases hex : (alookup p s.tree).isSome
    · simp [hex, alookup_eraseKey]
    · cases hh : alookup p s.tree with
      | some c => rw [hh] at hex; simp at hex
      | none => simp [hex, hh]

/-- The repair `restore_file_from_history` touches no working-tree path but its own. -/
theorem restore_tree_other (s : EnfState) (p q : RPath) (h : p ≠ q) :
    alookup q (restore_file_from_history s p false).tree = alookup q s.tree := by
  unfold restore_file_from_history
  cases alookup p s.prevRev with
  | some c => simp [alookup_upsert, h]
  | none => by_cases hex : (alookup p s.tree).isSome <;> simp [hex, alookup_eraseKey, h]

/-- The handler `handle_modified_file` is the identity on a registered path whose digest
matches the stored checksum. -/
theorem handle_modified_file_noop (s : EnfState) (path : RPath) (e : FileRecord)
    (hreg : alookup path s.registry.files = some e)
    (hck : calculate_checksum s.tree path = e.checksum) :
    handle_modified_file s path = s := by
  simp only [handle_modified_file]
  split
  · next h => rw [hreg] at h; cases h
  · next fe h =>
    rw [hreg] at h
    injection h with h
    subst h
    rw [if_pos hck]

/-! ## C7: an unchanged reported modification is a complete no-op -/

/-- C7: for a reported modification of a registered path whose current digest
equals the stored checksum, processing the change returns the state unchanged:
no authorization check is reached, no registry field or correction is
recorded, and the working tree is untouched. -/
theorem c7_unchanged_modification_is_noop (s : EnfState) (path : RPath) (e : FileRecord)
    (hreg : alookup path s.registry.files = some e)
    (hck : calculate_checksum s.tree path = e.checksum) :
    process_file s (.modified path) = s := by
  unfold process_file
  by_cases hex : (alookup path s.tree).isSome
  · simp only [hex, if_pos]
    exact handle_modified_file_noop s path e hreg hck
  · simp [hex]

/-- Closed instance of `c7_unchanged_modification_is_noop`. -/
theorem c7_witness :
    process_file
      { commit_author := "bob", now := "t1",
        registry := ⟨[(["notes.md"], ⟨"alice", "t0", "t0", "d1", false⟩)], []⟩,
        tree := [(["notes.md"], "d1")], prevRev := [(["notes.md"], "d1")],
        corrections_made := false, files_corrected := [], registry_updated := false,
        detected_moves := [], emptyDirs := [], removedDirs := [] }
      (.modified ["notes.md"]) =
      { commit_author := "bob", now := "t1",
        registry := ⟨[(["notes.md"], ⟨"alice", "t0", "t0", "d1", false⟩)], []⟩,
        tree := [(["notes.md"], "d1")], prevRev := [(["notes.md"], "d1")],
        corrections_made := false, files_corrected := [], registry_updated := false,
        detected_moves := [], emptyDirs := [], removedDirs := [] } :=
  c7_unchanged_modification_is_noop _ ["notes.md"] ⟨"alice", "t0", "t0", "d1", false⟩
    (by decide) (by decide)

/-! ## C8: a missing or corrupt registry loads as the empty registry -/

/-- C8: `load_registry` on a missing registry file and on an unparseable one
returns the empty registry (empty `files` and `folders` maps) instead of
failing; the run then proceeds with that value. -/
theorem c8_load_registry_fails_soft :
    load_registry .missing = ⟨[], []⟩ ∧ load_registry .unparseable = ⟨[], []⟩ :=
  ⟨rfl, rfl⟩

/-! ## C9: the guardian-commit guard short-circuits the whole run -/

/-- C9: when the triggering commit is recognized as a guardian restoration
commit, `run` returns the state unchanged: no change is classified, processed
or repaired, no registry field is mutated and no correction is flagged. -/
theorem c9_guardian_commit_short_circuits (meta : Option CommitMeta)
    (cf : List Change) (s : EnfState)
    (h : is_guardian_commit meta = true) :
    run meta cf s = s := by
  unfold run
  simp [h]

/-- Closed instance of `c9_guardian_commit_short_circuits` at a concrete
guardian commit and nonempty batch. -/
theorem c9_witness :
    is_guardian_commit (some ⟨"Guardian Bot", "guardian@ironverse.bot", "Guardian: restore"⟩)
      = true ∧
    run (some ⟨"Guardian Bot", "guardian@ironverse.bot", "Guardian: restore"⟩)
      [.added ["drafts", "new.md"]]
      { commit_author := "carol", now := "t1", registry := ⟨[], []⟩,
        tree := [(["drafts", "new.md"], "d9")], prevRev := [],
        corrections_made := false, files_corrected := [], registry_updated := false,
        detected_moves := [], emptyDirs := [], removedDirs := [] } =
      { commit_author := "carol", now := "t1", registry := ⟨[], []⟩,
        tree := [(["drafts", "new.md"], "d9")], prevRev := [],
        corrections_made := false, files_corrected := [], registry_updated := false,
        detected_moves := [], emptyDirs := [], removedDirs := [] } :=
  ⟨by decide, c9_guardian_commit_short_circuits _ _ _ (by decide)⟩

/-! ### Branch characterizations of the handlers -/

@[simp] theorem process_file_deleted (s : EnfState) (p : RPath) :
    process_file s (.deleted p) = handle_deletion s p := rfl

@[simp] theorem process_file_renamed (s : EnfState) (o n : RPath) :
    process_file s (.renamed o n) = handle_rename s o n := rfl

@[simp] theorem process_file_added (s : EnfState) (p : RPath) :
    process_file s (.added p)
      = if (alookup p s.tree).isSome then handle_new_file s p else s := rfl

@[simp] theorem process_file_modified (s : EnfState) (p : RPath) :
    process_file s (.modified p)
      = if (alookup p s.tree).isSome then handle_modified_file s p else s := rfl

@[simp] theorem denyRepair_registry (s : EnfState) (p : RPath) :
    (denyRepair s p).registry = s.registry := rfl

@[simp] theorem denyRepair_files_corrected (s : EnfState) (p : RPath) :
    (denyRepair s p).files_corrected = s.files_corrected ++ [p] := rfl

@[simp] theorem denyRepair_corrections_made (s : EnfState) (p : RPath) :
    (denyRepair s p).corrections_made = true := rfl

@[simp] theorem denyRepair_registry_updated (s : EnfState) (p : RPath) :
    (denyRepair s p).registry_updated = s.registry_updated := rfl

theorem denyRepair_tree_self (s : EnfState) (p : RPath) :
    alookup p (denyRepair s p).tree = alookup p s.prevRev :=
  restore_tree_self s p

theorem denyRepair_tree_other (s : EnfState) (p q : RPath) (h : p ≠ q) :
    alookup q (denyRepair s p).tree = alookup q s.tree :=
  restore_tree_other s p q h

theorem denyRepairMove_registry (s : EnfState) (o n : RPath) :
    (denyRepairMove s o n).registry = s.registry := by
  unfold denyRepairMove
  by_cases h : (alookup n (restore_file_from_history s o false).tree).isSome <;> simp [h]

theorem denyRepairMove_files_corrected (s : EnfState) (o n : RPath) :
    (denyRepairMove s o n).files_corrected = s.files_corrected ++ [o] := by
  unfold denyRepairMove
  by_cases h : (alookup n (restore_file_from_history s o false).tree).isSome <;> simp [h]

theorem denyRepairMove_corrections_made (s : EnfState) (o n : RPath) :
    (denyRepairMove s o n).corrections_made = true := by
  unfold denyRepairMove
  by_cases h : (alookup n (restore_file_from_history s o false).tree).isSome <;> simp [h]

theorem denyRepairMove_registry_updated (s : EnfState) (o n : RPath) :
    (denyRepairMove s o n).registry_updated = s.registry_updated := by
  unfold denyRepairMove
  by_cases h : (alookup n (restore_file_from_history s o false).tree).isSome <;> simp [h]

theorem denyRepairMove_tree_src (s : EnfState) (o n : RPath) (hne : o ≠ n) :
    alookup o (denyRepairMove s o n).tree = alookup o s.prevRev := by
  unfold denyRepairMove
  by_cases h : (alookup n (restore_file_from_history s o false).tree).isSome
  · simp only [h, if_pos]
    rw [alookup_eraseKey, if_neg (fun hx => hne hx.symm)]
    exact restore_tree_self s o
  · simp only [h, if_neg, Bool.false_eq_true, ite_false]
    exact restore_tree_self s o

theorem denyRepairMove_tree_dst (s : EnfState) (o n : RPath) :
    alookup n (denyRepairMove s o n).tree = none := by
  unfold denyRepairMove
  by_cases h : (alookup n (restore_file_from_history s o false).tree).isSome
  · simp only [h, if_pos]
    rw [alookup_eraseKey, if_pos rfl]
  · simp only [h, if_neg, Bool.false_eq_true, ite_false]
    cases hh : alookup n (restore_file_from_history s o false).tree with
    | some c => rw [hh] at h; simp at h
    | none => rfl

/-- A modification of a registered path with a changed digest and no
authorization runs the denial repair. -/
theorem handle_modified_file_denied (s : EnfState) (path : RPath) (e : FileRecord)
    (hreg : alookup path s.registry.files = some e)
    (hck : calculate_checksum s.tree path ≠ e.checksum)
    (hauth : ¬ (lowerStr s.commit_author = lowerStr e.owner ∨
       (lowerStr s.commit_author = lowerStr REPO_ADMIN ∧ e.admin_override = true))) :
    handle_modified_file s path = denyRepair s path := by
  unfold handle_modified_file
  split
  · next h => rw [hreg] at h; cases h
  · next fe h =>
    rw [hreg] at h
    injection h with h
    subst h
    rw [if_neg hck, if_neg hauth]

/-- A rename of a registered source by an unauthorized author runs the denial
repair for renames and moves. -/
theorem handle_rename_denied (s : EnfState) (old_path new_path : RPath) (e : FileRecord)
    (hreg : alookup old_path s.registry.files = some e)
    (hauth : ¬ (lowerStr s.commit_author = lowerStr e.owner ∨
       (lowerStr s.commit_author = lowerStr REPO_ADMIN ∧ e.admin_override = true))) :
    handle_rename s old_path new_path = denyRepairMove s old_path new_path := by
  unfold handle_rename
  split
  · next h => rw [hreg] at h; cases h
  · next fe h =>
    rw [hreg] at h
    injection h with h
    subst h
    rw [if_neg hauth]

/-- A deletion that is not part of a detected move, of a registered path, by
an unauthorized author, runs the denial repair. -/
theorem handle_deletion_denied (s : EnfState) (path : RPath) (e : FileRecord)
    (hdm : alookup path s.detected_moves = none)
    (hreg : alookup path s.registry.files = some e)
    (hauth : ¬ (lowerStr s.commit_author = lowerStr e.owner ∨
       (lowerStr s.commit_author = lowerStr REPO_ADMIN ∧ e.admin_override = true))) :
    handle_deletion s path = denyRepair s path := by
  unfold handle_deletion
  split
  · next np h => rw [hdm] at h; cases h
  · next h =>
    split
    · next h2 => rw [hreg] at h2; cases h2
    · next fe h2 =>
      rw [hreg] at h2
      injection h2 with h2
      subst h2
      rw [if_neg hauth]

/-- A deletion that is the source of a detected move is processed by
`handle_detected_move` on the matched pair. -/
theorem handle_deletion_detected (s : EnfState) (path new_path : RPath)
    (hdm : alookup path s.detected_moves = some new_path) :
    handle_deletion s path = handle_detected_move s path new_path := by
  unfold handle_deletion
  split
  · next np h =>
    rw [hdm] at h
    injection h with h
    subst h
    rfl
  · next h => rw [hdm] at h; cases h

/-- A detected move that `is_move_authorized` rejects runs the denial repair
for renames and moves. -/
theorem handle_detected_move_denied (s : EnfState) (old_path new_path : RPath)
    (hauthb : (is_move_authorized s old_path new_path).1 = false) :
    handle_detected_move s old_path new_path = denyRepairMove s old_path new_path := by
  unfold handle_detected_move
  rw [if_neg (by rw [hauthb]; exact Bool.false_ne_true)]

/-! ## C5: a denied change repairs the tree, preserves the registry, and
records exactly one correction -/

/-- C5: for each of the four ways a change is denied (modification, native
rename, plain deletion, detected move), processing the change leaves the
registry exactly as it was, appends exactly one entry to the correction list,
sets the correction flag, puts the source path of the change back to its
parent-revision state (deleting it when the parent revision lacks it), and
for a rename or move also deletes the destination path. -/
theorem c5_denied_change_repairs (s : EnfState) :
    (∀ path e, alookup path s.registry.files = some e →
      (alookup path s.tree).isSome = true →
      calculate_checksum s.tree path ≠ e.checksum →
      ¬ (lowerStr s.commit_author = lowerStr e.owner ∨
         (lowerStr s.commit_author = lowerStr REPO_ADMIN ∧ e.admin_override = true)) →
      (process_file s (.modified path)).registry = s.registry ∧
      (process_file s (.modified path)).files_corrected = s.files_corrected ++ [path] ∧
      (process_file s (.modified path)).corrections_made = true ∧
      alookup path (process_file s (.modified path)).tree = alookup path s.prevRev) ∧
    (∀ old_path new_path e, old_path ≠ new_path →
      alookup old_path s.registry.files = some e →
      ¬ (lowerStr s.commit_author = lowerStr e.owner ∨
         (lowerStr s.commit_author = lowerStr REPO_ADMIN ∧ e.admin_override = true)) →
      (process_file s (.renamed old_path new_path)).registry = s.registry ∧
      (process_file s (.renamed old_path new_path)).files_corrected
        = s.files_corrected ++ [old_path] ∧
      (process_file s (.renamed old_path new_path)).corrections_made = true ∧
      alookup old_path (process_file s (.renamed old_path new_path)).tree
        = alookup old_path s.prevRev ∧
      alookup new_path (process_file s (.renamed old_path new_path)).tree = none) ∧
    (∀ path e, alookup path s.detected_moves = none →
      alookup path s.registry.files = some e →
      ¬ (lowerStr s.commit_author = lowerStr e.owner ∨
         (lowerStr s.commit_author = lowerStr REPO_ADMIN ∧ e.admin_override = true)) →
      (process_file s (.deleted path)).registry = s.registry ∧
      (process_file s (.deleted path)).files_corrected = s.files_corrected ++ [path] ∧
      (process_file s (.deleted path)).corrections_made = true ∧
      alookup path (process_file s (.deleted path)).tree = alookup path s.prevRev) ∧
    (∀ old_path new_path, old_path ≠ new_path →
      alookup old_path s.detected_moves = some new_path →
      (is_move_authorized s old_path new_path).1 = false →
      (process_file s (.deleted old_path)).registry = s.registry ∧
      (process_file s (.deleted old_path)).files_corrected = s.files_corrected ++ [old_path] ∧
      (process_file s (.deleted old_path)).corrections_made = true ∧
      alookup old_path (process_file s (.deleted old_path)).tree
        = alookup old_path s.prevRev ∧
      alookup new_path (process_file s (.deleted old_path)).tree = none) := by
  refine ⟨?_, ?_, ?_, ?_⟩
  · intro path e hreg hex hck hauth
    rw [process_file_modified, if_pos hex,
      handle_modified_file_denied s path e hreg hck hauth]
    exact ⟨rfl, by simp, rfl, denyRepair_tree_self s path⟩
  · intro old_path new_path e hne hreg hauth
    rw [process_file_renamed, handle_rename_denied s old_path new_path e hreg hauth]
    exact ⟨denyRepairMove_registry s old_path new_path,
      denyRepairMove_files_corrected s old_path new_path,
      denyRepairMove_corrections_made s old_path new_path,
      denyRepairMove_tree_src s old_path new_path hne,
      denyRepairMove_tree_dst s old_path new_path⟩
  · intro path e hdm hreg hauth
    rw [process_file_deleted, handle_deletion_denied s path e hdm hreg hauth]
    exact ⟨rfl, by simp, rfl, denyRepair_tree_self s path⟩
  · intro old_path new_path hne hdm hauthb
    rw [process_file_deleted, handle_deletion_detected s old_path new_path hdm,
      handle_detected_move_denied s old_path new_path hauthb]
    exact ⟨denyRepairMove_registry s old_path new_path,
      denyRepairMove_files_corrected s old_path new_path,
      denyRepairMove_corrections_made s old_path new_path,
      denyRepairMove_tree_src s old_path new_path hne,
      denyRepairMove_tree_dst s old_path new_path⟩

/-- Closed instance of `c5_denied_change_repairs`: a denied modification and a
denied detected move on `c5State`. -/
theorem c5_witness :
    ((process_file c5State (.modified ["notes.md"])).registry = c5State.registry ∧
     (process_file c5State (.modified ["notes.md"])).files_corrected = [["notes.md"]] ∧
     alookup ["notes.md"] (process_file c5State (.modified ["notes.md"])).tree
       = some "d1") ∧
    ((process_file c5State (.deleted ["old.md"])).registry = c5State.registry ∧
     (process_file c5State (.deleted ["old.md"])).files_corrected = [["old.md"]] ∧
     alookup ["moved.md"] (process_file c5State (.deleted ["old.md"])).tree = none) := by
  have h1 := (c5_denied_change_repairs c5State).1 ["notes.md"]
    ⟨"alice", "t0", "t0", "d1", false⟩ (by decide) (by decide) (by decide) (by decide)
  have h4 := (c5_denied_change_repairs c5State).2.2.2 ["old.md"] ["moved.md"]
    (by decide) (by decide) (by decide)
  exact ⟨⟨h1.1, by rw [h1.2.1]; rfl, by rw [h1.2.2.2]; rfl⟩,
         ⟨h4.1, by rw [h4.2.1]; rfl, h4.2.2.2.2⟩⟩

/-! ## C10: paths without a registry record are never denied -/

/-- A deletion that is no detected move and whose path has no registry record
returns the state unchanged. -/
theorem handle_deletion_not_registered (s : EnfState) (path : RPath)
    (hdm : alookup path s.detected_moves = none)
    (hreg : alookup path s.registry.files = none) :
    handle_deletion s path = s := by
  unfold handle_deletion
  rw [hdm, hreg]

/-- A reported modification of a path with no registry record falls through
to `handle_new_file`. -/
theorem handle_modified_file_not_registered (s : EnfState) (path : RPath)
    (hreg : alookup path s.registry.files = none) :
    handle_modified_file s path = handle_new_file s path := by
  unfold handle_modified_file
  rw [hreg]

/-- A rename whose source has no registry record falls through to
`handle_new_file` on the destination. -/
theorem handle_rename_not_registered (s : EnfState) (old_path new_path : RPath)
    (hreg : alookup old_path s.registry.files = none) :
    handle_rename s old_path new_path = handle_new_file s new_path := by
  unfold handle_rename
  rw [hreg]

/-- The handler `handle_new_file` on a path that is not a detected-move destination puts a
fresh record owned by the committing author into the registry. -/
theorem handle_new_file_lookup (s : EnfState) (path : RPath)
    (hnd : s.detected_moves.any (fun m => m.2 == path) = false) :
    alookup path (handle_new_file s path).registry.files
      = some ⟨s.commit_author, s.now, s.now, calculate_checksum s.tree path, false⟩ := by
  unfold handle_new_file
  rw [if_neg (by rw [hnd]; exact Bool.false_ne_true)]
  show alookup path (upsert path _ (register_folder_ownership s path).registry.files) = _
  rw [alookup_upsert, if_pos rfl]
  rfl

/-- The handler `handle_new_file` records no correction in either branch. -/
theorem handle_new_file_corrections (s : EnfState) (path : RPath) :
    (handle_new_file s path).corrections_made = s.corrections_made ∧
    (handle_new_file s path).files_corrected = s.files_corrected := by
  unfold handle_new_file
  by_cases h : s.detected_moves.any (fun m => m.2 == path) = true <;>
    simp [h, register_folder_ownership]

/-- C10: a change whose path (for renames, whose source) has no entry in the
registry's `files` map is never denied or repaired: a deletion (that no
detected move claims) leaves the state unchanged, and a reported modification
or rename is handled as a new file whose content owner becomes the committing
actor, with no correction recorded, whoever that actor is. -/
theorem c10_unregistered_path_never_denied (s : EnfState) :
    (∀ path, alookup path s.detected_moves = none →
      alookup path s.registry.files = none →
      process_file s (.deleted path) = s) ∧
    (∀ path, alookup path s.registry.files = none →
      (alookup path s.tree).isSome = true →
      s.detected_moves.any (fun m => m.2 == path) = false →
      alookup path (process_file s (.modified path)).registry.files
        = some ⟨s.commit_author, s.now, s.now, calculate_checksum s.tree path, false⟩ ∧
      (process_file s (.modified path)).files_corrected = s.files_corrected ∧
      (process_file s (.modified path)).corrections_made = s.corrections_made) ∧
    (∀ old_path new_path, alookup old_path s.registry.files = none →
      s.detected_moves.any (fun m => m.2 == new_path) = false →
      alookup new_path (process_file s (.renamed old_path new_path)).registry.files
        = some ⟨s.commit_author, s.now, s.now, calculate_checksum s.tree new_path, false⟩ ∧
      (process_file s (.renamed old_path new_path)).files_corrected = s.files_corrected ∧
      (process_file s (.renamed old_path new_path)).corrections_made
        = s.corrections_made) := by
  refine ⟨?_, ?_, ?_⟩
  · intro path hdm hreg
    rw [process_file_deleted, handle_deletion_not_registered s path hdm hreg]
  · intro path hreg hex hnd
    rw [process_file_modified, if_pos hex, handle_modified_file_not_registered s path hreg]
    exact ⟨handle_new_file_lookup s path hnd, (handle_new_file_corrections s path).2,
      (handle_new_file_corrections s path).1⟩
  · intro old_path new_path hreg hnd
    rw [process_file_renamed, handle_rename_not_registered s old_path new_path hreg]
    exact ⟨handle_new_file_lookup s new_path hnd, (handle_new_file_corrections s new_path).2,
      (handle_new_file_corrections s new_path).1⟩

/-- Closed instance of `c10_unregistered_path_never_denied` on `c10State`. -/
theorem c10_witness :
    process_file c10State (.deleted ["gone.md"]) = c10State ∧
    alookup ["a.md"] (process_file c10State (.modified ["a.md"])).registry.files
      = some ⟨"mallory", "t1", "t1", "d1", false⟩ ∧
    alookup ["b.md"] (process_file c10State (.renamed ["x.md"] ["b.md"])).registry.files
      = some ⟨"mallory", "t1", "t1", "d2", false⟩ := by
  have h1 := (c10_unregistered_path_never_denied c10State).1 ["gone.md"] rfl rfl
  have h2 := (c10_unregistered_path_never_denied c10State).2.1 ["a.md"] rfl (by decide) rfl
  have h3 := (c10_unregistered_path_never_denied c10State).2.2 ["x.md"] ["b.md"] rfl rfl
  exact ⟨h1, by rw [h2.1]; rfl, by rw [h3.1]; rfl⟩

/-! ## C1: the structural-ownership rule governs detected moves only -/

theorem sourceOwnerOk_iff (author : String) (o? : Option String) :
    sourceOwnerOk author o? = true ↔
      ∃ o, o? = some o ∧ o ≠ "" ∧ lowerStr o = lowerStr author := by
  cases o? with
  | none => simp [sourceOwnerOk]
  | some o => simp [sourceOwnerOk]

theorem destOwnerOk_iff (author : String) (o? : Option String) :
    destOwnerOk author o? = true ↔
      o? = none ∨ ∃ o, o? = some o ∧ lowerStr o = lowerStr author := by
  cases o? with
  | none => simp [destOwnerOk]
  | some o => simp [destOwnerOk]

/-- C1 counterexample: on `c1State`, the native rename `x/a.md -> y/a.md` by
`bob` satisfies the claim's structural condition (actor owns the source
parent, destination parent unowned) while `bob` is neither content owner nor
admin-override holder, so the claim as stated predicts Authorized; the code
denies the rename and repairs it. -/
theorem c1_counterexample :
    sourceOwnerOk c1State.commit_author
      (get_structural_owner c1State.registry ["x", "a.md"]) = true ∧
    destOwnerOk c1State.commit_author
      (get_structural_owner c1State.registry ["y", "a.md"]) = true ∧
    lowerStr c1State.commit_author ≠ lowerStr "alice" ∧
    lowerStr c1State.commit_author ≠ lowerStr REPO_ADMIN ∧
    (process_file c1State (.renamed ["x", "a.md"] ["y", "a.md"])).corrections_made = true ∧
    (process_file c1State (.renamed ["x", "a.md"] ["y", "a.md"])).files_corrected
      = [["x", "a.md"]] := by
  decide

/-- C1 as amended: for an actor who is neither the recorded content owner of
the source (case-insensitively) nor an admin-override holder, the
checksum-detected-move decision `is_move_authorized` is Authorized iff the
actor is (case-insensitively) the nonempty structural owner of the source
path and the destination path either has no structural owner or has the actor
as its structural owner; a native rename by such an actor of a registered
source is always denied and repaired, structural ownership notwithstanding. -/
theorem c1_amended_structural_rule (s : EnfState) :
    (∀ old_path new_path : RPath,
      lowerStr s.commit_author
        ≠ lowerStr (((alookup old_path s.registry.files).map (fun e => e.owner)).getD "") →
      ¬ (lowerStr s.commit_author = lowerStr REPO_ADMIN ∧
         ((alookup old_path s.registry.files).map (fun e => e.admin_override)).getD false
           = true) →
      ((is_move_authorized s old_path new_path).1 = true ↔
        ((∃ o, get_structural_owner s.registry old_path = some o ∧ o ≠ "" ∧
            lowerStr o = lowerStr s.commit_author) ∧
         (get_structural_owner s.registry new_path = none ∨
          ∃ o, get_structural_owner s.registry new_path = some o ∧
            lowerStr o = lowerStr s.commit_author)))) ∧
    (∀ (old_path new_path : RPath) (e : FileRecord),
      alookup old_path s.registry.files = some e →
      lowerStr s.commit_author ≠ lowerStr e.owner →
      ¬ (lowerStr s.commit_author = lowerStr REPO_ADMIN ∧ e.admin_override = true) →
      process_file s (.renamed old_path new_path)
        = denyRepairMove s old_path new_path) := by
  constructor
  · intro old_path new_path howner hadmin
    simp only [is_move_authorized]
    rw [if_neg hadmin, if_neg howner]
    by_cases h : (sourceOwnerOk s.commit_author (get_structural_owner s.registry old_path)
        && destOwnerOk s.commit_author (get_structural_owner s.registry new_path)) = true
    · rw [if_pos h]
      rw [Bool.and_eq_true, sourceOwnerOk_iff, destOwnerOk_iff] at h
      simpa using h
    · rw [if_neg h]
      rw [Bool.and_eq_true] at h
      constructor
      · intro hx; cases hx
      · intro hx
        exact absurd ⟨(sourceOwnerOk_iff _ _).mpr hx.1, (destOwnerOk_iff _ _).mpr hx.2⟩ h
  · intro old_path new_path e hreg howner hadmin
    rw [process_file_renamed]
    exact handle_rename_denied s old_path new_path e hreg
      (fun hx => hx.elim howner hadmin)

/-- Closed instance of `c1_amended_structural_rule` on `c1State`: the same
pair of paths is an authorized move but a denied native rename. -/
theorem c1_witness :
    (is_move_authorized c1State ["x", "a.md"] ["y", "a.md"]).1 = true ∧
    process_file c1State (.renamed ["x", "a.md"] ["y", "a.md"])
      = denyRepairMove c1State ["x", "a.md"] ["y", "a.md"] := by
  have h := c1_amended_structural_rule c1State
  refine ⟨(h.1 ["x", "a.md"] ["y", "a.md"] (by decide) (by decide)).mpr ?_,
    h.2 ["x", "a.md"] ["y", "a.md"] ⟨"alice", "t0", "t0", "d1", false⟩
      (by decide) (by decide) (by decide)⟩
  exact ⟨⟨"bob", by decide, by decide, by decide⟩, Or.inl (by decide)⟩

/-! ## C4: folder registration claims only the topmost unclaimed ancestor -/

theorem mem_range_one {s n m : ℕ} : m ∈ List.range' s n ↔ s ≤ m ∧ m < s + n := by
  rw [List.mem_range']
  constructor
  · rintro ⟨i, hi, rfl⟩; omega
  · intro ⟨h1, h2⟩; exact ⟨m - s, by omega, by omega⟩

theorem range_one_concat (s n : ℕ) : List.range' s (n + 1) = List.range' s n ++ [s + n] := by
  rw [@List.range'_concat 1 s n, one_mul]

theorem take_ne_of_length_ne {p : RPath} {j k : ℕ} (hj : j ≤ p.length)
    (hk : k ≤ p.length) (h : j ≠ k) : p.take j ≠ p.take k := by
  intro he
  apply h
  have hlen := congrArg List.length he
  rwa [List.length_take, List.length_take, min_eq_left hj, min_eq_left hk] at hlen

theorem take_ne_nil {p : RPath} {k : ℕ} (h1 : 1 ≤ k) (h2 : 1 ≤ p.length) :
    p.take k ≠ [] := by
  intro he
  have hlen := congrArg List.length he
  rw [List.length_take] at hlen
  simp only [List.length_nil] at hlen
  omega

theorem take_mem_ancChain (p : RPath) (k : ℕ) (h1 : 1 ≤ k) (h2 : k < p.length) :
    p.take k ∈ ancChain p := by
  unfold ancChain
  apply List.mem_map_of_mem
  rw [List.mem_reverse, mem_range_one]
  omega

theorem ancChain_reverse (p : RPath) :
    (ancChain p).reverse = (List.range' 1 (p.length - 1)).map (fun k => p.take k) := by
  unfold ancChain
  rw [List.map_reverse, List.reverse_reverse]

/-- The ancestor chain of `folder + "/dummy"` is the folder itself followed by
the folder's own ancestor chain. -/
theorem ancChain_append_dummy (q : RPath) (h : q ≠ []) :
    ancChain (q ++ ["dummy"]) = q :: ancChain q := by
  unfold ancChain
  have hq : q.length = (q.length - 1) + 1 := by
    cases q with
    | nil => exact absurd rfl h
    | cons a l => simp
  have h1 : (q ++ ["dummy"]).length - 1 = q.length := by simp
  rw [h1, hq, range_one_concat, List.reverse_append]
  simp only [List.reverse_singleton, List.singleton_append, List.map_cons]
  have h2 : 1 + (q.length - 1) = q.length := by omega
  rw [h2]
  have h3 : (q ++ ["dummy"]).take q.length = q := List.take_left q ["dummy"]
  rw [h3]
  congr 1
  apply List.map_congr_left
  intro j hj
  rw [List.mem_reverse, mem_range_one] at hj
  exact List.take_append_of_le_length (by omega)

/-- The ancestor chain of a prefix `p.take k` lists the shorter prefixes. -/
theorem ancChain_take (p : RPath) (k : ℕ) (hk : k ≤ p.length) :
    ancChain (p.take k)
      = ((List.range' 1 (k - 1)).reverse).map (fun j => p.take j) := by
  unfold ancChain
  rw [List.length_take, min_eq_left hk]
  apply List.map_congr_left
  intro j hj
  rw [List.mem_reverse, mem_range_one] at hj
  rw [List.take_take]
  congr 1
  omega

theorem firstFolderOwner_cons_none (folders : List (RPath × FolderRecord))
    (f : RPath) (rest : List RPath) (h : alookup f folders = none) :
    firstFolderOwner folders (f :: rest) = firstFolderOwner folders rest := by
  show (match alookup f folders with
        | some r => some r.structural_owner
        | none => firstFolderOwner folders rest) = firstFolderOwner folders rest
  rw [h]

theorem firstFolderOwner_cons_some (folders : List (RPath × FolderRecord))
    (f : RPath) (rest : List RPath) (r : FolderRecord) (h : alookup f folders = some r) :
    firstFolderOwner folders (f :: rest) = some r.structural_owner := by
  show (match alookup f folders with
        | some r => some r.structural_owner
        | none => firstFolderOwner folders rest) = some r.structural_owner
  rw [h]

theorem firstFolderOwner_append_none (folders : List (RPath × FolderRecord))
    (L₁ L₂ : List RPath) (h : ∀ f ∈ L₁, alookup f folders = none) :
    firstFolderOwner folders (L₁ ++ L₂) = firstFolderOwner folders L₂ := by
  induction L₁ with
  | nil => rfl
  | cons f rest ih =>
    rw [List.cons_append, firstFolderOwner_cons_none folders f _ (h f (by simp))]
    exact ih (fun g hg => h g (by simp [hg]))

/-- Once the topmost unclaimed ancestor has been claimed, every deeper folder
of the chain is skipped: it has no record and its ancestor walk finds the
fresh record. -/
theorem register_folders_skip (author now : String) (reg : Registry) (p : RPath)
    (hn : 2 ≤ p.length)
    (hchain : ∀ f ∈ ancChain p, alookup f reg.folders = none) :
    ∀ (ks : List ℕ) (upd : Bool), (∀ k ∈ ks, 2 ≤ k ∧ k < p.length) →
      register_folders author now
        { reg with folders := upsert (p.take 1) ⟨author, now⟩ reg.folders } upd
        (ks.map (fun k => p.take k))
      = ({ reg with folders := upsert (p.take 1) ⟨author, now⟩ reg.folders }, upd) := by
  intro ks
  induction ks with
  | nil => intro upd _; rfl
  | cons k rest ih =>
    intro upd hks
    obtain ⟨hk2, hkn⟩ := hks k (by simp)
    have hkle : k ≤ p.length := le_of_lt hkn
    have hne1 : p.take 1 ≠ p.take k := take_ne_of_length_ne (by omega) hkle (by omega)
    have hlook : alookup (p.take k) (upsert (p.take 1) ⟨author, now⟩ reg.folders) = none := by
      rw [alookup_upsert, if_neg hne1]
      exact hchain _ (take_mem_ancChain p k (by omega) hkn)
    have hgso : get_structural_owner
        { reg with folders := upsert (p.take 1) ⟨author, now⟩ reg.folders }
        (p.take k ++ ["dummy"]) = some author := by
      unfold get_structural_owner
      rw [ancChain_append_dummy _ (take_ne_nil (by omega) (by omega))]
      show firstFolderOwner (upsert (p.take 1) ⟨author, now⟩ reg.folders)
        (p.take k :: ancChain (p.take k)) = some author
      rw [firstFolderOwner_cons_none _ _ _ hlook]
      rw [ancChain_take p k hkle]
      have hsplit : List.range' 1 (k - 1) = 1 :: List.range' 2 (k - 2) := by
        have hk1 : k - 1 = (k - 2) + 1 := by omega
        rw [hk1]
        rfl
      rw [hsplit, List.reverse_cons, List.map_append]
      rw [firstFolderOwner_append_none]
      · show firstFolderOwner (upsert (p.take 1) ⟨author, now⟩ reg.folders)
          (p.take 1 :: []) = some author
        rw [firstFolderOwner_cons_some _ _ _ ⟨author, now⟩
          (by rw [alookup_upsert, if_pos rfl])]
      · intro f hf
        rw [List.mem_map] at hf
        obtain ⟨j, hj, rfl⟩ := hf
        rw [List.mem_reverse, mem_range_one] at hj
        rw [alookup_upsert,
          if_neg (take_ne_of_length_ne (by omega) (by omega) (by omega))]
        exact hchain _ (take_mem_ancChain p j (by omega) (by omega))
    rw [List.map_cons]
    unfold register_folders
    rw [show ({ reg with folders := upsert (p.take 1) ⟨author, now⟩ reg.folders }
        : Registry).folders = upsert (p.take 1) ⟨author, now⟩ reg.folders from rfl]
    rw [hlook]
    simp only [Option.isSome_none, Bool.false_eq_true, if_false]
    rw [hgso]
    exact ih upd (fun k2 hk2 => hks k2 (by simp [hk2]))

/-- On a previously-unclaimed ancestor chain, the registration loop creates a
record for the topmost ancestor folder only. -/
theorem register_folders_unclaimed (author now : String) (reg : Registry) (upd : Bool)
    (p : RPath) (hn : 2 ≤ p.length)
    (hchain : ∀ f ∈ ancChain p, alookup f reg.folders = none) :
    register_folders author now reg upd ((ancChain p).reverse)
      = ({ reg with folders := upsert (p.take 1) ⟨author, now⟩ reg.folders }, true) := by
  rw [ancChain_reverse]
  have hsplit : List.range' 1 (p.length - 1) = 1 :: List.range' 2 (p.length - 2) := by
    have hk1 : p.length - 1 = (p.length - 2) + 1 := by omega
    rw [hk1]
    rfl
  rw [hsplit, List.map_cons]
  have hl1 : alookup (p.take 1) reg.folders = none :=
    hchain _ (take_mem_ancChain p 1 le_rfl (by omega))
  have hg1 : get_structural_owner reg (p.take 1 ++ ["dummy"]) = none := by
    unfold get_structural_owner
    rw [ancChain_append_dummy _ (take_ne_nil le_rfl (by omega))]
    rw [firstFolderOwner_cons_none _ _ _ hl1]
    rw [ancChain_take p 1 (by omega)]
    rfl
  unfold register_folders
  rw [hl1]
  simp only [Option.isSome_none, Bool.false_eq_true, if_false]
  rw [hg1]
  exact register_folders_skip author now reg p hn hchain (List.range' 2 (p.length - 2))
    true (fun k hk => by rw [mem_range_one] at hk; omega)

/-- The registration `register_folder_ownership` on a fully-unclaimed chain: the state gains
exactly one folder record, at the topmost ancestor. -/
theorem register_folder_ownership_unclaimed (s : EnfState) (p : RPath)
    (hn : 2 ≤ p.length)
    (hchain : ∀ f ∈ ancChain p, alookup f s.registry.folders = none) :
    register_folder_ownership s p
      = { s with
          registry := { s.registry with
            folders := upsert (p.take 1) ⟨s.commit_author, s.now⟩ s.registry.folders },
          registry_updated := true } := by
  simp only [register_folder_ownership]
  rw [register_folders_unclaimed s.commit_author s.now s.registry s.registry_updated p hn
    hchain]

/-- C4 counterexample: processing the authorized addition of `a/b/new.md`
under a previously-unclaimed tree creates a folder record for `a` but none
for the ancestor `a/b`, so records are not created for every ancestor folder
from root to leaf as the claim states. -/
theorem c4_counterexample :
    alookup ["a"] (process_file c4State (.added ["a", "b", "new.md"])).registry.folders
      = some ⟨"carol", "t1"⟩ ∧
    alookup ["a", "b"]
      (process_file c4State (.added ["a", "b", "new.md"])).registry.folders = none := by
  decide

/-- C4 as amended: for an authorized addition whose ancestor folders carry no
structural-ownership record, processing the addition creates a record with
`structural_owner` equal to the committing actor for the topmost ancestor
folder only; every deeper ancestor folder still has no record afterwards
(it inherits from the topmost one), and the file itself is registered to the
actor. -/
theorem c4_amended_topmost_ancestor_only (s : EnfState) (p : RPath)
    (hn : 2 ≤ p.length)
    (hex : (alookup p s.tree).isSome = true)
    (hnd : s.detected_moves.any (fun m => m.2 == p) = false)
    (hchain : ∀ f ∈ ancChain p, alookup f s.registry.folders = none) :
    alookup (p.take 1) (process_file s (.added p)).registry.folders
      = some ⟨s.commit_author, s.now⟩ ∧
    (∀ k, 2 ≤ k → k < p.length →
      alookup (p.take k) (process_file s (.added p)).registry.folders = none) ∧
    alookup p (process_file s (.added p)).registry.files
      = some ⟨s.commit_author, s.now, s.now, calculate_checksum s.tree p, false⟩ := by
  rw [process_file_added, if_pos hex]
  unfold handle_new_file
  rw [if_neg (by rw [hnd]; exact Bool.false_ne_true)]
  rw [register_folder_ownership_unclaimed s p hn hchain]
  refine ⟨?_, ?_, ?_⟩
  · show alookup (p.take 1)
      (upsert (p.take 1) ⟨s.commit_author, s.now⟩ s.registry.folders) = _
    rw [alookup_upsert, if_pos rfl]
  · intro k hk2 hkn
    show alookup (p.take k)
      (upsert (p.take 1) ⟨s.commit_author, s.now⟩ s.registry.folders) = none
    rw [alookup_upsert,
      if_neg (take_ne_of_length_ne (by omega) (by omega) (by omega))]
    exact hchain _ (take_mem_ancChain p k (by omega) hkn)
  · show alookup p (upsert p _ _) = _
    rw [alookup_upsert, if_pos rfl]

/-- Closed instance of `c4_amended_topmost_ancestor_only` on `c4State`. -/
theorem c4_witness :
    alookup ["a"] (process_file c4State (.added ["a", "b", "new.md"])).registry.folders
      = some ⟨"carol", "t1"⟩ ∧
    alookup ["a", "b"]
      (process_file c4State (.added ["a", "b", "new.md"])).registry.folders = none ∧
    alookup ["a", "b", "new.md"]
      (process_file c4State (.added ["a", "b", "new.md"])).registry.files
      = some ⟨"carol", "t1", "t1", "d7", false⟩ := by
  have h := c4_amended_topmost_ancestor_only c4State ["a", "b", "new.md"]
    (by decide) (by decide) (by decide) (by decide)
  exact ⟨h.1, h.2.1 2 (by decide) (by decide), by rw [h.2.2]; rfl⟩

/-! ## C3: the admin override authorizes the admin exactly once -/

@[simp] theorem rfo_corrections_made (s : EnfState) (p : RPath) :
    (register_folder_ownership s p).corrections_made = s.corrections_made := rfl

@[simp] theorem rfo_files_corrected (s : EnfState) (p : RPath) :
    (register_folder_ownership s p).files_corrected = s.files_corrected := rfl

@[simp] theorem rfo_tree (s : EnfState) (p : RPath) :
    (register_folder_ownership s p).tree = s.tree := rfl

@[simp] theorem rfo_commit_author (s : EnfState) (p : RPath) :
    (register_folder_ownership s p).commit_author = s.commit_author := rfl

@[simp] theorem rfo_now (s : EnfState) (p : RPath) :
    (register_folder_ownership s p).now = s.now := rfl

@[simp] theorem rfo_prevRev (s : EnfState) (p : RPath) :
    (register_folder_ownership s p).prevRev = s.prevRev := rfl

@[simp] theorem rfo_detected_moves (s : EnfState) (p : RPath) :
    (register_folder_ownership s p).detected_moves = s.detected_moves := rfl

@[simp] theorem rfo_emptyDirs (s : EnfState) (p : RPath) :
    (register_folder_ownership s p).emptyDirs = s.emptyDirs := rfl

@[simp] theorem rfo_removedDirs (s : EnfState) (p : RPath) :
    (register_folder_ownership s p).removedDirs = s.removedDirs := rfl

/-- An admin-override record makes `is_move_authorized` answer on its first
branch. -/
theorem is_move_authorized_admin (s : EnfState) (old_path new_path : RPath)
    (e : FileRecord) (hreg : alookup old_path s.registry.files = some e)
    (hadmin : lowerStr s.commit_author = lowerStr REPO_ADMIN)
    (hflag : e.admin_override = true) :
    is_move_authorized s old_path new_path = (true, "admin_override") := by
  simp only [is_move_authorized]
  rw [if_pos ⟨hadmin, by rw [hreg]; exact hflag⟩]

/-- The authorized branch of `handle_detected_move`: no correction, and the
record moves to the destination with the owner preserved, the creation time
carried over, a fresh checksum, and no override flag. -/
theorem handle_detected_move_authorized (s : EnfState) (old_path new_path : RPath)
    (hne : old_path ≠ new_path)
    (hauthb : (is_move_authorized s old_path new_path).1 = true) :
    (handle_detected_move s old_path new_path).corrections_made = s.corrections_made ∧
    (handle_detected_move s old_path new_path).files_corrected = s.files_corrected ∧
    alookup new_path (handle_detected_move s old_path new_path).registry.files
      = some ⟨((alookup old_path s.registry.files).map (fun e => e.owner)).getD "",
              ((alookup old_path s.registry.files).map (fun e => e.created)).getD s.now,
              s.now, calculate_checksum s.tree new_path, false⟩ ∧
    alookup old_path (handle_detected_move s old_path new_path).registry.files = none := by
  simp only [handle_detected_move]
  rw [if_pos hauthb]
  refine ⟨rfl, rfl, ?_, ?_⟩
  · show alookup new_path (eraseKey old_path (upsert new_path _
      (register_folder_ownership s new_path).registry.files)) = _
    rw [alookup_eraseKey, if_neg hne, alookup_upsert, if_pos rfl]
    rfl
  · show alookup old_path (eraseKey old_path (upsert new_path _
      (register_folder_ownership s new_path).registry.files)) = none
    rw [alookup_eraseKey, if_pos rfl]

/-- The admin-override branch of `handle_modified_file`: the edit is accepted
and the stored record is rewritten with the override flag removed. -/
theorem handle_modified_file_override (s : EnfState) (path : RPath) (e : FileRecord)
    (hreg : alookup path s.registry.files = some e)
    (hck : calculate_checksum s.tree path ≠ e.checksum)
    (hadmin : lowerStr s.commit_author = lowerStr REPO_ADMIN)
    (hflag : e.admin_override = true) :
    handle_modified_file s path
      = { s with
          registry := { s.registry with
            files := upsert path
              { e with
                admin_override := false,
                modified := s.now,
                checksum := calculate_checksum s.tree path } s.registry.files },
          registry_updated := true } := by
  simp only [handle_modified_file]
  split
  · next h => rw [hreg] at h; cases h
  · next fe h =>
    rw [hreg] at h
    injection h with h
    subst h
    rw [if_neg hck, if_pos (Or.inr ⟨hadmin, hflag⟩), if_pos ⟨hadmin, hflag⟩]

/-- C3: on a record whose `admin_override` flag is set, a modification by the
designated administrator (case-insensitively) who is not the content owner is
Authorized and rewrites the record with the flag cleared; repeating the edit
with fresh content is then Denied and repaired; an actor other than the
administrator gains nothing from the flag; and an override move is Authorized
with the destination record carrying no flag and the source record gone. -/
theorem c3_admin_override_single_use (s : EnfState) :
    (∀ path e, alookup path s.registry.files = some e →
      (alookup path s.tree).isSome = true →
      calculate_checksum s.tree path ≠ e.checksum →
      lowerStr s.commit_author = lowerStr REPO_ADMIN →
      lowerStr s.commit_author ≠ lowerStr e.owner →
      e.admin_override = true →
      process_file s (.modified path)
        = { s with
            registry := { s.registry with
              files := upsert path
                { e with
                  admin_override := false,
                  modified := s.now,
                  checksum := calculate_checksum s.tree path } s.registry.files },
            registry_updated := true }) ∧
    (∀ path e c2 s2, alookup path s.registry.files = some e →
      (alookup path s.tree).isSome = true →
      calculate_checksum s.tree path ≠ e.checksum →
      lowerStr s.commit_author = lowerStr REPO_ADMIN →
      lowerStr s.commit_author ≠ lowerStr e.owner →
      e.admin_override = true →
      c2 ≠ calculate_checksum s.tree path →
      s2 = { process_file s (.modified path) with
             tree := upsert path c2 (process_file s (.modified path)).tree } →
      process_file s2 (.modified path) = denyRepair s2 path) ∧
    (∀ path e, alookup path s.registry.files = some e →
      (alookup path s.tree).isSome = true →
      calculate_checksum s.tree path ≠ e.checksum →
      lowerStr s.commit_author ≠ lowerStr REPO_ADMIN →
      lowerStr s.commit_author ≠ lowerStr e.owner →
      e.admin_override = true →
      process_file s (.modified path) = denyRepair s path) ∧
    (∀ old_path new_path e, old_path ≠ new_path →
      alookup old_path s.detected_moves = some new_path →
      alookup old_path s.registry.files = some e →
      lowerStr s.commit_author = lowerStr REPO_ADMIN →
      e.admin_override = true →
      (process_file s (.deleted old_path)).corrections_made = s.corrections_made ∧
      (process_file s (.deleted old_path)).files_corrected = s.files_corrected ∧
      alookup new_path (process_file s (.deleted old_path)).registry.files
        = some ⟨e.owner, e.created, s.now, calculate_checksum s.tree new_path, false⟩ ∧
      alookup old_path (process_file s (.deleted old_path)).registry.files = none) := by
  refine ⟨?_, ?_, ?_, ?_⟩
  · intro path e hreg hex hck hadmin howner hflag
    rw [process_file_modified, if_pos hex,
      handle_modified_file_override s path e hreg hck hadmin hflag]
  · intro path e c2 s2 hreg hex hck hadmin howner hflag hc2 hs2
    have hpf : process_file s (.modified path)
        = { s with
            registry := { s.registry with
              files := upsert path
                { e with
                  admin_override := false,
                  modified := s.now,
                  checksum := calculate_checksum s.tree path } s.registry.files },
            registry_updated := true } := by
      rw [process_file_modified, if_pos hex,
        handle_modified_file_override s path e hreg hck hadmin hflag]
    have hreg2 : alookup path s2.registry.files
        = some { e with
                 admin_override := false,
                 modified := s.now,
                 checksum := calculate_checksum s.tree path } := by
      rw [hs2]
      show alookup path (process_file s (.modified path)).registry.files = _
      rw [hpf]
      show alookup path (upsert path _ s.registry.files) = _
      rw [alookup_upsert, if_pos rfl]
    have htree2 : s2.tree = upsert path c2 (process_file s (.modified path)).tree := by
      rw [hs2]
    have hex2 : (alookup path s2.tree).isSome = true := by
      rw [htree2, alookup_upsert, if_pos rfl]
      rfl
    have hck2 : calculate_checksum s2.tree path ≠ calculate_checksum s.tree path := by
      unfold calculate_checksum
      rw [htree2, alookup_upsert, if_pos rfl]
      exact hc2
    have hca : s2.commit_author = s.commit_author := by
      rw [hs2]
      show (process_file s (.modified path)).commit_author = s.commit_author
      rw [hpf]
    have hauth2 : ¬ (lowerStr s2.commit_author = lowerStr e.owner ∨
        (lowerStr s2.commit_author = lowerStr REPO_ADMIN ∧ False)) := by
      rw [hca]
      rintro (h | ⟨h1, h2⟩)
      · exact howner h
      · exact h2
    rw [process_file_modified, if_pos hex2]
    exact handle_modified_file_denied s2 path _ hreg2 hck2
      (fun h => hauth2 (h.imp id (fun hx => ⟨hx.1, by cases hx.2⟩)))
  · intro path e hreg hex hck hnadmin howner hflag
    rw [process_file_modified, if_pos hex]
    refine handle_modified_file_denied s path e hreg hck ?_
    rintro (h | ⟨h1, h2⟩)
    · exact howner h
    · exact hnadmin h1
  · intro old_path new_path e hne hdm hreg hadmin hflag
    rw [process_file_deleted, handle_deletion_detected s old_path new_path hdm]
    have hauthb : (is_move_authorized s old_path new_path).1 = true := by
      rw [is_move_authorized_admin s old_path new_path e hreg hadmin hflag]
    have h := handle_detected_move_authorized s old_path new_path hne hauthb
    refine ⟨h.1, h.2.1, ?_, h.2.2.2⟩
    rw [h.2.2.1, hreg]
    rfl

/-- Closed instance of `c3_admin_override_single_use` on `c3State`: the first
override edit is accepted and clears the flag; an identical second edit by
the same actor is denied; the override move carries no flag over. -/
theorem c3_witness :
    alookup ["notes.md"] (process_file c3State (.modified ["notes.md"])).registry.files
      = some ⟨"alice", "t0", "t1", "d2", false⟩ ∧
    (process_file
        { process_file c3State (.modified ["notes.md"]) with
          tree := upsert ["notes.md"] "d9"
            (process_file c3State (.modified ["notes.md"])).tree }
        (.modified ["notes.md"])).corrections_made = true ∧
    alookup ["moved.md"] (process_file c3State (.deleted ["old.md"])).registry.files
      = some ⟨"alice", "t0", "t1", "d3", false⟩ := by
  have h := c3_admin_override_single_use c3State
  have h1 := h.1 ["notes.md"] ⟨"alice", "t0", "t0", "d1", true⟩
    (by decide) (by decide) (by decide) (by decide) (by decide) (by decide)
  have h2 := h.2.1 ["notes.md"] ⟨"alice", "t0", "t0", "d1", true⟩ "d9"
    { process_file c3State (.modified ["notes.md"]) with
      tree := upsert ["notes.md"] "d9"
        (process_file c3State (.modified ["notes.md"])).tree }
    (by decide) (by decide) (by decide) (by decide) (by decide) (by decide) (by decide)
    rfl
  have h4 := h.2.2.2 ["old.md"] ["moved.md"] ⟨"alice", "t0", "t0", "d3", true⟩
    (by decide) (by decide) (by decide) (by decide) (by decide)
  refine ⟨?_, ?_, ?_⟩
  · rw [h1]
    decide
  · rw [h2]
    rfl
  · rw [h4.2.2.1]
    rfl

/-! ## C2: checksum move detection pairs a deletion with the first matching
addition and processes the pair as one move -/

theorem findMatch_mem (tree : List (RPath × String)) (ck : String) (adds : List RPath)
    (b : RPath) (h : findMatch tree ck adds = some b) : b ∈ adds := by
  induction adds with
  | nil => cases h
  | cons x rest ih =>
    unfold findMatch at h
    by_cases hx : (alookup x tree).isSome = true ∧ calculate_checksum tree x = ck
    · rw [if_pos hx] at h
      injection h with h
      simp [h]
    · rw [if_neg hx] at h
      simp [ih h]

theorem findMatch_spec (tree : List (RPath × String)) (ck : String) (adds : List RPath)
    (b : RPath) (h : findMatch tree ck adds = some b) :
    (alookup b tree).isSome = true ∧ calculate_checksum tree b = ck := by
  induction adds with
  | nil => cases h
  | cons x rest ih =>
    unfold findMatch at h
    by_cases hx : (alookup x tree).isSome = true ∧ calculate_checksum tree x = ck
    · rw [if_pos hx] at h
      injection h with h
      rw [← h]
      exact hx
    · rw [if_neg hx] at h
      exact ih h

theorem detectMovesLoop_cons_none (files : List (RPath × FileRecord))
    (tree : List (RPath × String)) (d : RPath) (ds adds : List RPath)
    (h : alookup d files = none) :
    detectMovesLoop files tree (d :: ds) adds = detectMovesLoop files tree ds adds := by
  show (match alookup d files with
        | none => detectMovesLoop files tree ds adds
        | some r =>
          if r.checksum = "" then detectMovesLoop files tree ds adds
          else
            match findMatch tree r.checksum adds with
            | none => detectMovesLoop files tree ds adds
            | some a =>
              (d, a) :: detectMovesLoop files tree ds (adds.filter (fun x => x != a)))
      = detectMovesLoop files tree ds adds
  rw [h]

theorem detectMovesLoop_cons_empty (files : List (RPath × FileRecord))
    (tree : List (RPath × String)) (d : RPath) (ds adds : List RPath) (r : FileRecord)
    (h : alookup d files = some r) (h2 : r.checksum = "") :
    detectMovesLoop files tree (d :: ds) adds = detectMovesLoop files tree ds adds := by
  show (match alookup d files with
        | none => detectMovesLoop files tree ds adds
        | some r =>
          if r.checksum = "" then detectMovesLoop files tree ds adds
          else
            match findMatch tree r.checksum adds with
            | none => detectMovesLoop files tree ds adds
            | some a =>
              (d, a) :: detectMovesLoop files tree ds (adds.filter (fun x => x != a)))
      = detectMovesLoop files tree ds adds
  rw [h]
  show (if r.checksum = "" then detectMovesLoop files tree ds adds
        else
          match findMatch tree r.checksum adds with
          | none => detectMovesLoop files tree ds adds
          | some a =>
            (d, a) :: detectMovesLoop files tree ds (adds.filter (fun x => x != a)))
      = detectMovesLoop files tree ds adds
  rw [if_pos h2]

theorem detectMovesLoop_cons_nomatch (files : List (RPath × FileRecord))
    (tree : List (RPath × String)) (d : RPath) (ds adds : List RPath) (r : FileRecord)
    (h : alookup d files = some r) (h2 : r.checksum ≠ "")
    (h3 : findMatch tree r.checksum adds = none) :
    detectMovesLoop files tree (d :: ds) adds = detectMovesLoop files tree ds adds := by
  show (match alookup d files with
        | none => detectMovesLoop files tree ds adds
        | some r =>
          if r.checksum = "" then detectMovesLoop files tree ds adds
          else
            match findMatch tree r.checksum adds with
            | none => detectMovesLoop files tree ds adds
            | some a =>
              (d, a) :: detectMovesLoop files tree ds (adds.filter (fun x => x != a)))
      = detectMovesLoop files tree ds adds
  rw [h]
  show (if r.checksum = "" then detectMovesLoop files tree ds adds
        else
          match findMatch tree r.checksum adds with
          | none => detectMovesLoop files tree ds adds
          | some a =>
            (d, a) :: detectMovesLoop files tree ds (adds.filter (fun x => x != a)))
      = detectMovesLoop files tree ds adds
  rw [if_neg h2, h3]

theorem detectMovesLoop_cons_match (files : List (RPath × FileRecord))
    (tree : List (RPath × String)) (d : RPath) (ds adds : List RPath) (r : FileRecord)
    (a : RPath) (h : alookup d files = some r) (h2 : r.checksum ≠ "")
    (h3 : findMatch tree r.checksum adds = some a) :
    detectMovesLoop files tree (d :: ds) adds
      = (d, a) :: detectMovesLoop files tree ds (adds.filter (fun x => x != a)) := by
  show (match alookup d files with
        | none => detectMovesLoop files tree ds adds
        | some r =>
          if r.checksum = "" then detectMovesLoop files tree ds adds
          else
            match findMatch tree r.checksum adds with
            | none => detectMovesLoop files tree ds adds
            | some a =>
              (d, a) :: detectMovesLoop files tree ds (adds.filter (fun x => x != a)))
      = (d, a) :: detectMovesLoop files tree ds (adds.filter (fun x => x != a))
  rw [h]
  show (if r.checksum = "" then detectMovesLoop files tree ds adds
        else
          match findMatch tree r.checksum adds with
          | none => detectMovesLoop files tree ds adds
          | some a2 =>
            (d, a2) :: detectMovesLoop files tree ds (adds.filter (fun x => x != a2)))
      = (d, a) :: detectMovesLoop files tree ds (adds.filter (fun x => x != a))
  rw [if_neg h2, h3]

theorem remainingAdds_cons_none (files : List (RPath × FileRecord))
    (tree : List (RPath × String)) (d : RPath) (ds adds : List RPath)
    (h : alookup d files = none) :
    remainingAdds files tree (d :: ds) adds = remainingAdds files tree ds adds := by
  show (match alookup d files with
        | none => remainingAdds files tree ds adds
        | some r =>
          if r.checksum = "" then remainingAdds files tree ds adds
          else
            match findMatch tree r.checksum adds with
            | none => remainingAdds files tree ds adds
            | some a => remainingAdds files tree ds (adds.filter (fun x => x != a)))
      = remainingAdds files tree ds adds
  rw [h]

theorem remainingAdds_cons_empty (files : List (RPath × FileRecord))
    (tree : List (RPath × String)) (d : RPath) (ds adds : List RPath) (r : FileRecord)
    (h : alookup d files = some r) (h2 : r.checksum = "") :
    remainingAdds files tree (d :: ds) adds = remainingAdds files tree ds adds := by
  show (match alookup d files with
        | none => remainingAdds files tree ds adds
        | some r =>
          if r.checksum = "" then remainingAdds files tree ds adds
          else
            match findMatch tree r.checksum adds with
            | none => remainingAdds files tree ds adds
            | some a => remainingAdds files tree ds (adds.filter (fun x => x != a)))
      = remainingAdds files tree ds adds
  rw [h]
  show (if r.checksum = "" then remainingAdds files tree ds adds
        else
          match findMatch tree r.checksum adds with
          | none => remainingAdds files tree ds adds
          | some a => remainingAdds files tree ds (adds.filter (fun x => x != a)))
      = remainingAdds files tree ds adds
  rw [if_pos h2]

theorem remainingAdds_cons_nomatch (files : List (RPath × FileRecord))
    (tree : List (RPath × String)) (d : RPath) (ds adds : List RPath) (r : FileRecord)
    (h : alookup d files = some r) (h2 : r.checksum ≠ "")
    (h3 : findMatch tree r.checksum adds = none) :
    remainingAdds files tree (d :: ds) adds = remainingAdds files tree ds adds := by
  show (match alookup d files with
        | none => remainingAdds files tree ds adds
        | some r =>
          if r.checksum = "" then remainingAdds files tree ds adds
          else
            match findMatch tree r.checksum adds with
            | none => remainingAdds files tree ds adds
            | some a => remainingAdds files tree ds (adds.filter (fun x => x != a)))
      = remainingAdds files tree ds adds
  rw [h]
  show (if r.checksum = "" then remainingAdds files tree ds adds
        else
          match findMatch tree r.checksum adds with
          | none => remainingAdds files tree ds adds
          | some a => remainingAdds files tree ds (adds.filter (fun x => x != a)))
      = remainingAdds files tree ds adds
  rw [if_neg h2, h3]

theorem remainingAdds_cons_match (files : List (RPath × FileRecord))
    (tree : List (RPath × String)) (d : RPath) (ds adds : List RPath) (r : FileRecord)
    (a : RPath) (h : alookup d files = some r) (h2 : r.checksum ≠ "")
    (h3 : findMatch tree r.checksum adds = some a) :
    remainingAdds files tree (d :: ds) adds
      = remainingAdds files tree ds (adds.filter (fun x => x != a)) := by
  show (match alookup d files with
        | none => remainingAdds files tree ds adds
        | some r =>
          if r.checksum = "" then remainingAdds files tree ds adds
          else
            match findMatch tree r.checksum adds with
            | none => remainingAdds files tree ds adds
            | some a => remainingAdds files tree ds (adds.filter (fun x => x != a)))
      = remainingAdds files tree ds (adds.filter (fun x => x != a))
  rw [h]
  show (if r.checksum = "" then remainingAdds files tree ds adds
        else
          match findMatch tree r.checksum adds with
          | none => remainingAdds files tree ds adds
          | some a2 => remainingAdds files tree ds (adds.filter (fun x => x != a2)))
      = remainingAdds files tree ds (adds.filter (fun x => x != a))
  rw [if_neg h2, h3]

/-- The detection loop is compositional: processing `l₁ ++ l₂` processes `l₁`
and then `l₂` on the pool of additions `l₁` left unmatched. -/
theorem detectMovesLoop_append (files : List (RPath × FileRecord))
    (tree : List (RPath × String)) (l₁ l₂ : List RPath) (adds : List RPath) :
    detectMovesLoop files tree (l₁ ++ l₂) adds
      = detectMovesLoop files tree l₁ adds
        ++ detectMovesLoop files tree l₂ (remainingAdds files tree l₁ adds) := by
  induction l₁ generalizing adds with
  | nil => rfl
  | cons d ds ih =>
    rw [List.cons_append]
    cases h : alookup d files with
    | none =>
      rw [detectMovesLoop_cons_none _ _ _ _ _ h, detectMovesLoop_cons_none _ _ _ _ _ h,
        remainingAdds_cons_none _ _ _ _ _ h, ih]
    | some r =>
      by_cases h2 : r.checksum = ""
      · rw [detectMovesLoop_cons_empty _ _ _ _ _ r h h2,
          detectMovesLoop_cons_empty _ _ _ _ _ r h h2,
          remainingAdds_cons_empty _ _ _ _ _ r h h2, ih]
      · cases h3 : findMatch tree r.checksum adds with
        | none =>
          rw [detectMovesLoop_cons_nomatch _ _ _ _ _ r h h2 h3,
            detectMovesLoop_cons_nomatch _ _ _ _ _ r h h2 h3,
            remainingAdds_cons_nomatch _ _ _ _ _ r h h2 h3, ih]
        | some a =>
          rw [detectMovesLoop_cons_match _ _ _ _ _ r a h h2 h3,
            detectMovesLoop_cons_match _ _ _ _ _ r a h h2 h3,
            remainingAdds_cons_match _ _ _ _ _ r a h h2 h3, ih, List.cons_append]

/-- Every pair the detection loop emits takes its deletion from the deletion
list and its addition from the addition pool. -/
theorem detectMovesLoop_mem (files : List (RPath × FileRecord))
    (tree : List (RPath × String)) (dels adds : List RPath) (a b : RPath)
    (h : (a, b) ∈ detectMovesLoop files tree dels adds) : a ∈ dels ∧ b ∈ adds := by
  induction dels generalizing adds with
  | nil => cases h
  | cons d ds ih =>
    cases hd : alookup d files with
    | none =>
      rw [detectMovesLoop_cons_none _ _ _ _ _ hd] at h
      have := ih adds h
      exact ⟨by simp [this.1], this.2⟩
    | some r =>
      by_cases h2 : r.checksum = ""
      · rw [detectMovesLoop_cons_empty _ _ _ _ _ r hd h2] at h
        have := ih adds h
        exact ⟨by simp [this.1], this.2⟩
      · cases h3 : findMatch tree r.checksum adds with
        | none =>
          rw [detectMovesLoop_cons_nomatch _ _ _ _ _ r hd h2 h3] at h
          have := ih adds h
          exact ⟨by simp [this.1], this.2⟩
        | some x =>
          rw [detectMovesLoop_cons_match _ _ _ _ _ r x hd h2 h3] at h
          rcases List.mem_cons.mp h with heq | hmem
          · injection heq with e1 e2
            subst e1
            subst e2
            exact ⟨by simp, findMatch_mem tree r.checksum adds b h3⟩
          · have := ih _ hmem
            exact ⟨by simp [this.1], List.mem_of_mem_filter this.2⟩

/-- A lookup skips over bindings whose keys differ. -/
theorem alookup_append_of_keys_ne {β : Type} (a : RPath) (A l : List (RPath × β))
    (h : ∀ q ∈ A, q.1 ≠ a) : alookup a (A ++ l) = alookup a l := by
  induction A with
  | nil => rfl
  | cons x rest ih =>
    rw [List.cons_append]
    show (if x.1 = a then some x.2 else alookup a (rest ++ l)) = alookup a l
    rw [if_neg (h x (by simp)), ih (fun q hq => h q (by simp [hq]))]

theorem alookup_mem {β : Type} (a : RPath) (b : β) (l : List (RPath × β))
    (h : alookup a l = some b) : (a, b) ∈ l := by
  induction l with
  | nil => cases h
  | cons x rest ih =>
    unfold alookup at h
    by_cases hx : x.1 = a
    · rw [if_pos hx] at h
      injection h with h
      have hx2 : x = (a, b) := by
        obtain ⟨x1, x2⟩ := x
        simp only at hx h
        rw [hx, h]
      rw [hx2]
      exact List.mem_cons_self _ _
    · rw [if_neg hx] at h
      exact List.mem_cons_of_mem _ (ih h)

theorem remainingAdds_subset (files : List (RPath × FileRecord))
    (tree : List (RPath × String)) (dels adds : List RPath) (b : RPath)
    (h : b ∈ remainingAdds files tree dels adds) : b ∈ adds := by
  induction dels generalizing adds with
  | nil => exact h
  | cons d ds ih =>
    cases hd : alookup d files with
    | none =>
      rw [remainingAdds_cons_none _ _ _ _ _ hd] at h
      exact ih adds h
    | some r =>
      by_cases h2 : r.checksum = ""
      · rw [remainingAdds_cons_empty _ _ _ _ _ r hd h2] at h
        exact ih adds h
      · cases h3 : findMatch tree r.checksum adds with
        | none =>
          rw [remainingAdds_cons_nomatch _ _ _ _ _ r hd h2 h3] at h
          exact ih adds h
        | some x =>
          rw [remainingAdds_cons_match _ _ _ _ _ r x hd h2 h3] at h
          exact List.mem_of_mem_filter (ih _ h)

/-- C2: when the batch deletes `a`, whose registry record stores the nonempty
checksum `D`, and `b` is the first addition of the batch with digest `D` among
those not matched by an earlier deletion, the classifier pairs `a` with `b`;
`b`'s digest equals `D`; and with that classification installed, processing
the deletion of `a` is exactly the processing of the move `(a, b)` while
processing the addition of `b` is a skip (the pair is one move, not an
independent deletion plus addition). -/
theorem c2_move_detection_pairs_first_match (s : EnfState) (cf : List Change)
    (dels₁ dels₂ : List RPath) (a b : RPath) (r : FileRecord)
    (hsplit : delsOf cf = dels₁ ++ a :: dels₂)
    (ha1 : a ∉ dels₁)
    (hreg : alookup a s.registry.files = some r)
    (hck : r.checksum ≠ "")
    (hb : findMatch s.tree r.checksum
      (remainingAdds s.registry.files s.tree dels₁ (addsOf cf)) = some b) :
    alookup a (detect_moves s cf) = some b ∧
    calculate_checksum s.tree b = r.checksum ∧
    process_file { s with detected_moves := detect_moves s cf } (.deleted a)
      = handle_detected_move { s with detected_moves := detect_moves s cf } a b ∧
    process_file { s with detected_moves := detect_moves s cf } (.added b)
      = { s with detected_moves := detect_moves s cf } := by
  have hbmem : b ∈ addsOf cf :=
    remainingAdds_subset _ _ _ _ b (findMatch_mem _ _ _ b hb)
  have hdmeq : detect_moves s cf
      = detectMovesLoop s.registry.files s.tree (delsOf cf) (addsOf cf) := by
    unfold detect_moves
    rw [if_neg]
    intro hor
    rcases hor with hd | ha
    · rw [hsplit] at hd
      simp at hd
    · rw [List.isEmpty_iff] at ha
      rw [ha] at hbmem
      cases hbmem
  have hloop : detectMovesLoop s.registry.files s.tree (delsOf cf) (addsOf cf)
      = detectMovesLoop s.registry.files s.tree dels₁ (addsOf cf)
        ++ (a, b) :: detectMovesLoop s.registry.files s.tree dels₂
            ((remainingAdds s.registry.files s.tree dels₁ (addsOf cf)).filter
              (fun x => x != b)) := by
    rw [hsplit, detectMovesLoop_append,
      detectMovesLoop_cons_match _ _ _ _ _ r b hreg hck hb]
  have hlook : alookup a (detect_moves s cf) = some b := by
    rw [hdmeq, hloop, alookup_append_of_keys_ne]
    · show (if a = a then some b else _) = some b
      rw [if_pos rfl]
    · intro q hq hqa
      apply ha1
      rw [← hqa]
      exact (detectMovesLoop_mem _ _ _ _ q.1 q.2 hq).1
  have hmoved : (a, b) ∈ detect_moves s cf := alookup_mem a b _ hlook
  refine ⟨hlook, (findMatch_spec _ _ _ b hb).2, ?_, ?_⟩
  · rw [process_file_deleted]
    exact handle_deletion_detected _ a b hlook
  · rw [process_file_added]
    by_cases hex : (alookup b ({ s with detected_moves := detect_moves s cf }).tree).isSome
      = true
    · rw [if_pos hex]
      unfold handle_new_file
      rw [if_pos]
      rw [List.any_eq_true]
      exact ⟨(a, b), hmoved, by simp⟩
    · rw [if_neg hex]

/-- Closed instance of `c2_move_detection_pairs_first_match` on `c2State`. -/
theorem c2_witness :
    alookup ["a.md"]
      (detect_moves c2State [.deleted ["a.md"], .added ["b.md"]]) = some ["b.md"] ∧
    process_file
        { c2State with
          detected_moves := detect_moves c2State [.deleted ["a.md"], .added ["b.md"]] }
        (.added ["b.md"])
      = { c2State with
          detected_moves := detect_moves c2State [.deleted ["a.md"], .added ["b.md"]] } := by
  have h := c2_move_detection_pairs_first_match c2State
    [.deleted ["a.md"], .added ["b.md"]] [] [] ["a.md"] ["b.md"]
    ⟨"alice", "t0", "t0", "D", false⟩ rfl (by simp) (by decide) (by decide) (by decide)
  exact ⟨h.1, h.2.2.2⟩

/-! ## C6: a second run over the state a clean run left behind makes no
corrections -/

theorem handle_new_file_tree (s : EnfState) (p : RPath) :
    (handle_new_file s p).tree = s.tree := by
  simp only [handle_new_file]
  split
  · rfl
  · rfl

theorem handle_new_file_const (s : EnfState) (p : RPath) :
    (handle_new_file s p).commit_author = s.commit_author ∧
    (handle_new_file s p).now = s.now ∧
    (handle_new_file s p).prevRev = s.prevRev ∧
    (handle_new_file s p).detected_moves = s.detected_moves ∧
    (handle_new_file s p).emptyDirs = s.emptyDirs := by
  simp only [handle_new_file]
  split
  · exact ⟨rfl, rfl, rfl, rfl, rfl⟩
  · exact ⟨rfl, rfl, rfl, rfl, rfl⟩

theorem denyRepairMove_const (s : EnfState) (o n : RPath) :
    (denyRepairMove s o n).commit_author = s.commit_author ∧
    (denyRepairMove s o n).now = s.now ∧
    (denyRepairMove s o n).prevRev = s.prevRev ∧
    (denyRepairMove s o n).detected_moves = s.detected_moves ∧
    (denyRepairMove s o n).emptyDirs = s.emptyDirs := by
  unfold denyRepairMove
  by_cases h : (alookup n (restore_file_from_history s o false).tree).isSome = true <;>
    simp [h]

/-- No handler ever touches the author, the timestamp, the parent revision,
the detected-move table or the empty-directory state. -/
theorem process_file_const (s : EnfState) (c : Change) :
    (process_file s c).commit_author = s.commit_author ∧
    (process_file s c).now = s.now ∧
    (process_file s c).prevRev = s.prevRev ∧
    (process_file s c).detected_moves = s.detected_moves ∧
    (process_file s c).emptyDirs = s.emptyDirs := by
  cases c with
  | added p =>
    rw [process_file_added]
    by_cases hex : (alookup p s.tree).isSome = true
    · rw [if_pos hex]
      exact handle_new_file_const s p
    · rw [if_neg hex]
      exact ⟨rfl, rfl, rfl, rfl, rfl⟩
  | modified p =>
    rw [process_file_modified]
    by_cases hex : (alookup p s.tree).isSome = true
    · rw [if_pos hex]
      simp only [handle_modified_file]
      split
      · exact handle_new_file_const s p
      · split
        · exact ⟨rfl, rfl, rfl, rfl, rfl⟩
        · split
          · exact ⟨rfl, rfl, rfl, rfl, rfl⟩
          · exact ⟨rfl, rfl, rfl, rfl, rfl⟩
    · rw [if_neg hex]
      exact ⟨rfl, rfl, rfl, rfl, rfl⟩
  | deleted p =>
    rw [process_file_deleted]
    simp only [handle_deletion]
    split
    · next np _ =>
      simp only [handle_detected_move]
      split
      · exact ⟨rfl, rfl, rfl, rfl, rfl⟩
      · exact denyRepairMove_const s p np
    · split
      · exact ⟨rfl, rfl, rfl, rfl, rfl⟩
      · split
        · exact ⟨rfl, rfl, rfl, rfl, rfl⟩
        · exact ⟨rfl, rfl, rfl, rfl, rfl⟩
  | renamed o n =>
    rw [process_file_renamed]
    simp only [handle_rename]
    split
    · exact handle_new_file_const s n
    · split
      · exact ⟨rfl, rfl, rfl, rfl, rfl⟩
      · exact denyRepairMove_const s o n

/-- Every processing step either records no correction and leaves the
correction list and the working tree alone, or raises the correction flag. -/
theorem process_file_step_cases (s : EnfState) (c : Change) :
    ((process_file s c).corrections_made = s.corrections_made ∧
     (process_file s c).tree = s.tree ∧
     (process_file s c).files_corrected = s.files_corrected) ∨
    (process_file s c).corrections_made = true := by
  cases c with
  | added p =>
    rw [process_file_added]
    by_cases hex : (alookup p s.tree).isSome = true
    · rw [if_pos hex]
      exact Or.inl ⟨(handle_new_file_corrections s p).1, handle_new_file_tree s p,
        (handle_new_file_corrections s p).2⟩
    · rw [if_neg hex]
      exact Or.inl ⟨rfl, rfl, rfl⟩
  | modified p =>
    rw [process_file_modified]
    by_cases hex : (alookup p s.tree).isSome = true
    · rw [if_pos hex]
      simp only [handle_modified_file]
      split
      · exact Or.inl ⟨(handle_new_file_corrections s p).1, handle_new_file_tree s p,
          (handle_new_file_corrections s p).2⟩
      · split
        · exact Or.inl ⟨rfl, rfl, rfl⟩
        · split
          · exact Or.inl ⟨rfl, rfl, rfl⟩
          · exact Or.inr rfl
    · rw [if_neg hex]
      exact Or.inl ⟨rfl, rfl, rfl⟩
  | deleted p =>
    rw [process_file_deleted]
    simp only [handle_deletion]
    split
    · next np _ =>
      simp only [handle_detected_move]
      split
      · exact Or.inl ⟨rfl, rfl, rfl⟩
      · exact Or.inr (denyRepairMove_corrections_made s p np)
    · split
      · exact Or.inl ⟨rfl, rfl, rfl⟩
      · split
        · exact Or.inl ⟨rfl, rfl, rfl⟩
        · exact Or.inr rfl
  | renamed o n =>
    rw [process_file_renamed]
    simp only [handle_rename]
    split
    · exact Or.inl ⟨(handle_new_file_corrections s n).1, handle_new_file_tree s n,
        (handle_new_file_corrections s n).2⟩
    · split
      · exact Or.inl ⟨rfl, rfl, rfl⟩
      · exact Or.inr (denyRepairMove_corrections_made s o n)

theorem process_file_corrections_mono (s : EnfState) (c : Change)
    (h : s.corrections_made = true) : (process_file s c).corrections_made = true := by
  rcases process_file_step_cases s c with ⟨h1, _, _⟩ | h1
  · rw [h1, h]
  · exact h1

theorem process_file_corrections_back (s : EnfState) (c : Change)
    (h : (process_file s c).corrections_made = false) : s.corrections_made = false := by
  by_contra hx
  rw [Bool.not_eq_false] at hx
  rw [process_file_corrections_mono s c hx] at h
  cases h

theorem process_file_tree_back (s : EnfState) (c : Change)
    (h : (process_file s c).corrections_made = false) :
    (process_file s c).tree = s.tree := by
  rcases process_file_step_cases s c with ⟨_, h2, _⟩ | h1
  · exact h2
  · rw [h1] at h
    cases h

theorem process_file_files_corrected_back (s : EnfState) (c : Change)
    (h : (process_file s c).corrections_made = false) :
    (process_file s c).files_corrected = s.files_corrected := by
  rcases process_file_step_cases s c with ⟨_, _, h3⟩ | h1
  · exact h3
  · rw [h1] at h
    cases h

theorem processList_cons (s : EnfState) (c : Change) (rest : List Change) :
    processList s (c :: rest) = processList (process_file s c) rest := rfl

theorem processList_append (s : EnfState) (l₁ l₂ : List Change) :
    processList s (l₁ ++ l₂) = processList (processList s l₁) l₂ := by
  simp [processList, List.foldl_append]

theorem processList_corrections_mono (s : EnfState) (l : List Change)
    (h : s.corrections_made = true) : (processList s l).corrections_made = true := by
  induction l generalizing s with
  | nil => exact h
  | cons c rest ih => exact ih _ (process_file_corrections_mono s c h)

theorem processList_corrections_back (s : EnfState) (l : List Change)
    (h : (processList s l).corrections_made = false) : s.corrections_made = false := by
  by_contra hx
  rw [Bool.not_eq_false] at hx
  rw [processList_corrections_mono s l hx] at h
  cases h

theorem processList_tree_back (s : EnfState) (l : List Change)
    (h : (processList s l).corrections_made = false) :
    (processList s l).tree = s.tree := by
  induction l generalizing s with
  | nil => rfl
  | cons c rest ih =>
    rw [processList_cons] at h ⊢
    have hc : (process_file s c).corrections_made = false :=
      processList_corrections_back _ _ h
    rw [ih _ h, process_file_tree_back s c hc]

theorem processList_const (s : EnfState) (l : List Change) :
    (processList s l).commit_author = s.commit_author ∧
    (processList s l).now = s.now ∧
    (processList s l).prevRev = s.prevRev ∧
    (processList s l).detected_moves = s.detected_moves ∧
    (processList s l).emptyDirs = s.emptyDirs := by
  induction l generalizing s with
  | nil => exact ⟨rfl, rfl, rfl, rfl, rfl⟩
  | cons c rest ih =>
    rw [processList_cons]
    obtain ⟨i1, i2, i3, i4, i5⟩ := ih (process_file s c)
    obtain ⟨j1, j2, j3, j4, j5⟩ := process_file_const s c
    exact ⟨i1.trans j1, i2.trans j2, i3.trans j3, i4.trans j4, i5.trans j5⟩

theorem cleanup_registry (s : EnfState) :
    (cleanup_empty_folders s).registry = s.registry := by
  unfold cleanup_empty_folders
  split <;> rfl

theorem cleanup_tree (s : EnfState) :
    (cleanup_empty_folders s).tree = s.tree := by
  unfold cleanup_empty_folders
  split <;> rfl

theorem cleanup_files_corrected (s : EnfState) :
    (cleanup_empty_folders s).files_corrected = s.files_corrected := by
  unfold cleanup_empty_folders
  split <;> rfl

theorem cleanup_corrections_back (s : EnfState)
    (h : (cleanup_empty_folders s).corrections_made = false) :
    s.corrections_made = false ∧ s.emptyDirs = [] := by
  unfold cleanup_empty_folders at h
  by_cases he : s.emptyDirs.isEmpty = true
  · rw [if_pos he] at h
    exact ⟨h, List.isEmpty_iff.mp he⟩
  · rw [if_neg he] at h
    cases h

theorem cleanup_of_empty (s : EnfState) (h : s.emptyDirs = []) :
    cleanup_empty_folders s = { s with removedDirs := [] } := by
  unfold cleanup_empty_folders
  rw [if_pos (by rw [h]; rfl)]

theorem handle_new_file_files_frame (s : EnfState) (p q : RPath) (hq : q ≠ p) :
    alookup q (handle_new_file s p).registry.files = alookup q s.registry.files := by
  simp only [handle_new_file]
  split
  · rfl
  · show alookup q (upsert p _ (register_folder_ownership s p).registry.files) = _
    rw [alookup_upsert, if_neg (fun h => hq h.symm), register_folder_ownership_files]

theorem handle_detected_move_files_frame (s : EnfState) (o n q : RPath)
    (hqo : q ≠ o) (hqn : q ≠ n) :
    alookup q (handle_detected_move s o n).registry.files
      = alookup q s.registry.files := by
  simp only [handle_detected_move]
  split
  · show alookup q (eraseKey o (upsert n _
      (register_folder_ownership s n).registry.files)) = _
    rw [alookup_eraseKey, if_neg (fun h => hqo h.symm),
      alookup_upsert, if_neg (fun h => hqn h.symm), register_folder_ownership_files]
  · rw [denyRepairMove_registry]

/-- A processing step reads and writes `files` entries only at the paths of
its own change (for a deletion, also at the matched move destination). -/
theorem process_file_files_frame (s : EnfState) (c : Change) (q : RPath)
    (hq : q ∉ cpaths c)
    (hq2 : ∀ pr ∈ s.detected_moves, q ≠ pr.2) :
    alookup q (process_file s c).registry.files = alookup q s.registry.files := by
  cases c with
  | added p =>
    have hqp : q ≠ p := by simp [cpaths] at hq; exact hq
    rw [process_file_added]
    by_cases hex : (alookup p s.tree).isSome = true
    · rw [if_pos hex]
      exact handle_new_file_files_frame s p q hqp
    · rw [if_neg hex]
  | modified p =>
    have hqp : q ≠ p := by simp [cpaths] at hq; exact hq
    rw [process_file_modified]
    by_cases hex : (alookup p s.tree).isSome = true
    · rw [if_pos hex]
      simp only [handle_modified_file]
      split
      · exact handle_new_file_files_frame s p q hqp
      · split
        · rfl
        · split
          · show alookup q (upsert p _ s.registry.files) = _
            rw [alookup_upsert, if_neg (fun h => hqp h.symm)]
          · rw [denyRepair_registry]
    · rw [if_neg hex]
  | deleted p =>
    have hqp : q ≠ p := by simp [cpaths] at hq; exact hq
    rw [process_file_deleted]
    simp only [handle_deletion]
    split
    · next np hnp =>
      exact handle_detected_move_files_frame s p np q hqp
        (hq2 (p, np) (alookup_mem p np s.detected_moves hnp))
    · split
      · rfl
      · split
        · show alookup q (eraseKey p s.registry.files) = _
          rw [alookup_eraseKey, if_neg (fun h => hqp h.symm)]
        · rw [denyRepair_registry]
  | renamed o n =>
    have hqo : q ≠ o := by simp [cpaths] at hq; exact hq.1
    have hqn : q ≠ n := by simp [cpaths] at hq; exact hq.2
    rw [process_file_renamed]
    simp only [handle_rename]
    split
    · exact handle_new_file_files_frame s n q hqn
    · split
      · show alookup q (eraseKey o (upsert n _ s.registry.files)) = _
        rw [alookup_eraseKey, if_neg (fun h => hqo h.symm),
          alookup_upsert, if_neg (fun h => hqn h.symm)]
      · rw [denyRepairMove_registry]

theorem processList_files_frame (s : EnfState) (l : List Change) (q : RPath)
    (hq : ∀ c ∈ l, q ∉ cpaths c)
    (hq2 : ∀ pr ∈ s.detected_moves, q ≠ pr.2) :
    alookup q (processList s l).registry.files = alookup q s.registry.files := by
  induction l generalizing s with
  | nil => rfl
  | cons c rest ih =>
    rw [processList_cons]
    have hdm : (process_file s c).detected_moves = s.detected_moves :=
      (process_file_const s c).2.2.2.1
    rw [ih (process_file s c) (fun c' hc' => hq c' (by simp [hc']))
      (by rw [hdm]; exact hq2)]
    exact process_file_files_frame s c q (hq c (by simp)) hq2

/-- The authorized branch of `handle_deletion`: the record is removed. -/
theorem handle_deletion_authorized (s : EnfState) (p : RPath) (e : FileRecord)
    (hdm : alookup p s.detected_moves = none)
    (hreg : alookup p s.registry.files = some e)
    (hauth : lowerStr s.commit_author = lowerStr e.owner ∨
       (lowerStr s.commit_author = lowerStr REPO_ADMIN ∧ e.admin_override = true)) :
    handle_deletion s p
      = { s with
          registry := { s.registry with files := eraseKey p s.registry.files },
          registry_updated := true } := by
  simp only [handle_deletion]
  split
  · next np h => rw [hdm] at h; cases h
  · split
    · next h2 => rw [hreg] at h2; cases h2
    · next fe h2 =>
      rw [hreg] at h2
      injection h2 with h2
      subst h2
      rw [if_pos hauth]

/-- The authorized branch of `handle_rename`: the record moves to the
destination (override flag dropped) and the source binding is removed. -/
theorem handle_rename_authorized (s : EnfState) (o n : RPath) (e : FileRecord)
    (hreg : alookup o s.registry.files = some e)
    (hauth : lowerStr s.commit_author = lowerStr e.owner ∨
       (lowerStr s.commit_author = lowerStr REPO_ADMIN ∧ e.admin_override = true)) :
    handle_rename s o n
      = { s with
          registry := { s.registry with
            files := eraseKey o (upsert n
              ⟨e.owner, e.created, s.now, calculate_checksum s.tree n, false⟩
              s.registry.files) },
          registry_updated := true } := by
  simp only [handle_rename]
  split
  · next h => rw [hreg] at h; cases h
  · next fe h =>
    rw [hreg] at h
    injection h with h
    subst h
    rw [if_pos hauth]

/-- The authorized branch of `handle_modified_file`: checksum and timestamp
are refreshed and a consumed override flag is dropped. -/
theorem handle_modified_file_authorized (s : EnfState) (path : RPath) (e : FileRecord)
    (hreg : alookup path s.registry.files = some e)
    (hck : calculate_checksum s.tree path ≠ e.checksum)
    (hauth : lowerStr s.commit_author = lowerStr e.owner ∨
       (lowerStr s.commit_author = lowerStr REPO_ADMIN ∧ e.admin_override = true)) :
    handle_modified_file s path
      = { s with
          registry := { s.registry with
            files := upsert path
              { e with
                admin_override :=
                  if lowerStr s.commit_author = lowerStr REPO_ADMIN ∧
                     e.admin_override = true then false else e.admin_override,
                modified := s.now,
                checksum := calculate_checksum s.tree path } s.registry.files },
          registry_updated := true } := by
  simp only [handle_modified_file]
  split
  · next h => rw [hreg] at h; cases h
  · next fe h =>
    rw [hreg] at h
    injection h with h
    subst h
    rw [if_neg hck, if_pos hauth]

/-! ### Path bookkeeping under a duplicate-free batch -/

theorem batchPaths_append (l₁ l₂ : List Change) :
    batchPaths (l₁ ++ l₂) = batchPaths l₁ ++ batchPaths l₂ := by
  simp [batchPaths]

theorem batchPaths_cons (c : Change) (l : List Change) :
    batchPaths (c :: l) = cpaths c ++ batchPaths l := rfl

theorem mem_batchPaths (l : List Change) (c : Change) (q : RPath)
    (hc : c ∈ l) (hq : q ∈ cpaths c) : q ∈ batchPaths l := by
  simp only [batchPaths, List.mem_flatten]
  exact ⟨cpaths c, List.mem_map_of_mem _ hc, hq⟩

theorem mem_addsOf (l : List Change) (q : RPath) :
    q ∈ addsOf l ↔ Change.added q ∈ l := by
  simp only [addsOf, List.mem_filterMap]
  constructor
  · rintro ⟨c, hc, he⟩
    cases c <;> simp at he
    rw [← he]
    exact hc
  · intro h
    exact ⟨.added q, h, rfl⟩

theorem mem_delsOf (l : List Change) (q : RPath) :
    q ∈ delsOf l ↔ Change.deleted q ∈ l := by
  simp only [delsOf, List.mem_filterMap]
  constructor
  · rintro ⟨c, hc, he⟩
    cases c <;> simp at he
    rw [← he]
    exact hc
  · intro h
    exact ⟨.deleted q, h, rfl⟩

/-- At a split `l₁ ++ c :: l₂` of a duplicate-free batch, a path of `c`
appears nowhere else, and `c`'s own paths are distinct. -/
theorem nodup_split_facts (l₁ l₂ : List Change) (c : Change)
    (hnodup : (batchPaths (l₁ ++ c :: l₂)).Nodup) (q : RPath) (hq : q ∈ cpaths c) :
    q ∉ batchPaths l₁ ∧ q ∉ batchPaths l₂ ∧ (cpaths c).Nodup := by
  rw [batchPaths_append, batchPaths_cons] at hnodup
  obtain ⟨h1, h2, hdisj⟩ := List.nodup_append.mp hnodup
  obtain ⟨hc, h3, hdisj2⟩ := List.nodup_append.mp h2
  exact ⟨fun hm => hdisj hm (List.mem_append_left _ hq), fun hm => hdisj2 hq hm, hc⟩

/-- At a split of a duplicate-free batch around a non-addition change, a path
of that change is distinct from every added path of the batch. -/
theorem nodup_split_ne_adds (l₁ l₂ : List Change) (c : Change)
    (hnodup : (batchPaths (l₁ ++ c :: l₂)).Nodup) (q : RPath) (hq : q ∈ cpaths c)
    (hnc : ∀ p, c ≠ .added p) :
    ∀ x ∈ addsOf (l₁ ++ c :: l₂), q ≠ x := by
  intro x hx heq
  subst heq
  have hmem : Change.added q ∈ l₁ ++ c :: l₂ := (mem_addsOf _ q).mp hx
  rcases List.mem_append.mp hmem with h | h
  · exact (nodup_split_facts l₁ l₂ c hnodup q hq).1
      (mem_batchPaths _ _ _ h (by simp [cpaths]))
  · rcases List.mem_cons.mp h with h | h
    · exact hnc q h.symm
    · exact (nodup_split_facts l₁ l₂ c hnodup q hq).2.1
        (mem_batchPaths _ _ _ h (by simp [cpaths]))

/-- Processing a change that already holds in the state, with no detected
moves pending, makes no correction and leaves the working tree alone. -/
theorem process_file_benign_step (t : EnfState) (c : Change)
    (hdm : t.detected_moves = [])
    (hOK : okChange t.registry.files t.tree c) :
    (process_file t c).corrections_made = t.corrections_made ∧
    (process_file t c).files_corrected = t.files_corrected ∧
    (process_file t c).tree = t.tree := by
  cases c with
  | added p =>
    rw [process_file_added]
    by_cases hex : (alookup p t.tree).isSome = true
    · rw [if_pos hex]
      exact ⟨(handle_new_file_corrections t p).1, (handle_new_file_corrections t p).2,
        handle_new_file_tree t p⟩
    · rw [if_neg hex]
      exact ⟨rfl, rfl, rfl⟩
  | modified p =>
    rw [process_file_modified]
    by_cases hex : (alookup p t.tree).isSome = true
    · rw [if_pos hex]
      cases hreg : alookup p t.registry.files with
      | none =>
        rw [handle_modified_file_not_registered t p hreg]
        exact ⟨(handle_new_file_corrections t p).1, (handle_new_file_corrections t p).2,
          handle_new_file_tree t p⟩
      | some e =>
        rw [handle_modified_file_noop t p e hreg (hOK hex e hreg)]
        exact ⟨rfl, rfl, rfl⟩
    · rw [if_neg hex]
      exact ⟨rfl, rfl, rfl⟩
  | deleted p =>
    rw [process_file_deleted,
      handle_deletion_not_registered t p (by rw [hdm]; rfl) hOK]
    exact ⟨rfl, rfl, rfl⟩
  | renamed o n =>
    rw [process_file_renamed, handle_rename_not_registered t o n hOK]
    exact ⟨(handle_new_file_corrections t n).1, (handle_new_file_corrections t n).2,
      handle_new_file_tree t n⟩

/-- A duplicate-free batch all of whose changes already hold in the state is
processed with zero corrections and an untouched working tree. -/
theorem processList_benign (t : EnfState) (l : List Change)
    (hdm : t.detected_moves = [])
    (hnodup : (batchPaths l).Nodup)
    (hOK : ∀ c ∈ l, okChange t.registry.files t.tree c) :
    (processList t l).corrections_made = t.corrections_made ∧
    (processList t l).files_corrected = t.files_corrected ∧
    (processList t l).tree = t.tree := by
  induction l generalizing t with
  | nil => exact ⟨rfl, rfl, rfl⟩
  | cons c rest ih =>
    rw [processList_cons]
    have hstep := process_file_benign_step t c hdm (hOK c (by simp))
    have hdm' : (process_file t c).detected_moves = [] := by
      rw [(process_file_const t c).2.2.2.1, hdm]
    have hnodup' : (batchPaths rest).Nodup := by
      rw [batchPaths_cons] at hnodup
      exact (List.nodup_append.mp hnodup).2.1
    have hdisj : ∀ q ∈ batchPaths rest, q ∉ cpaths c := by
      rw [batchPaths_cons] at hnodup
      intro q hq hqc
      exact (List.nodup_append.mp hnodup).2.2 hqc hq
    have hOK' : ∀ c' ∈ rest, okChange (process_file t c).registry.files
        (process_file t c).tree c' := by
      intro c' hc'
      have hframe : ∀ q ∈ cpaths c',
          alookup q (process_file t c).registry.files = alookup q t.registry.files := by
        intro q hq
        refine process_file_files_frame t c q ?_ ?_
        · exact hdisj q (mem_batchPaths rest c' q hc' hq)
        · rw [hdm]
          intro pr hpr
          cases hpr
      have hOKc := hOK c' (by simp [hc'])
      cases c' with
      | added p => trivial
      | modified p =>
        show (alookup p (process_file t c).tree).isSome = true →
          ∀ e, alookup p (process_file t c).registry.files = some e →
            calculate_checksum (process_file t c).tree p = e.checksum
        rw [hstep.2.2, hframe p (by simp [cpaths])]
        exact hOKc
      | deleted p =>
        show alookup p (process_file t c).registry.files = none
        rw [hframe p (by simp [cpaths])]
        exact hOKc
      | renamed o n =>
        show alookup o (process_file t c).registry.files = none
        rw [hframe o (by simp [cpaths])]
        exact hOKc
    obtain ⟨k1, k2, k3⟩ := ih (process_file t c) hdm' hnodup' hOK'
    exact ⟨k1.trans hstep.1, k2.trans hstep.2.1, k3.trans hstep.2.2⟩

/-- After a processing pass that made no correction, every change of the
batch already holds in the resulting state: deleted paths and rename sources
are no longer registered, and a registered modified path stores exactly the
digest the tree has. -/
theorem run1_establishes_ok (s' : EnfState) (cf : List Change)
    (hnodup : (batchPaths cf).Nodup)
    (hdm_dests : ∀ pr ∈ s'.detected_moves, pr.2 ∈ addsOf cf)
    (hfin : (processList s' cf).corrections_made = false) :
    ∀ c ∈ cf,
      okChange (processList s' cf).registry.files (processList s' cf).tree c := by
  intro c hc
  obtain ⟨l₁, l₂, hsplit⟩ := List.append_of_mem hc
  subst hsplit
  have hPL : processList s' (l₁ ++ c :: l₂)
      = processList (process_file (processList s' l₁) c) l₂ := by
    rw [processList_append, processList_cons]
  set u := processList s' l₁ with hu
  set v := process_file u c with hv
  rw [hPL] at hfin ⊢
  have hvcorr : v.corrections_made = false := processList_corrections_back v l₂ hfin
  have hucorr : u.corrections_made = false := process_file_corrections_back u c hvcorr
  have hutree : u.tree = s'.tree := processList_tree_back s' l₁ hucorr
  have hudm : u.detected_moves = s'.detected_moves := (processList_const s' l₁).2.2.2.1
  have hvdm : v.detected_moves = s'.detected_moves := by
    rw [hv, (process_file_const u c).2.2.2.1, hudm]
  have hfintree : (processList v l₂).tree = v.tree := processList_tree_back v l₂ hfin
  have hvtree : v.tree = s'.tree := by
    rw [hv, process_file_tree_back u c hvcorr, hutree]
  have hframe : ∀ q ∈ cpaths c, (∀ x, c ≠ .added x) →
      alookup q (processList v l₂).registry.files = alookup q v.registry.files := by
    intro q hq hnotadd
    refine processList_files_frame v l₂ q ?_ ?_
    · intro c' hc' hqc'
      exact (nodup_split_facts l₁ l₂ c hnodup q hq).2.1
        (mem_batchPaths l₂ c' q hc' hqc')
    · intro pr hpr
      rw [hvdm] at hpr
      exact nodup_split_ne_adds l₁ l₂ c hnodup q hq hnotadd pr.2 (hdm_dests pr hpr)
  cases c with
  | added p => trivial
  | deleted p =>
    show alookup p (processList v l₂).registry.files = none
    rw [hframe p (by simp [cpaths]) (fun x h => Change.noConfusion h), hv]
    cases hdmu : alookup p u.detected_moves with
    | some np =>
      have hnp_add : np ∈ addsOf (l₁ ++ .deleted p :: l₂) := by
        apply hdm_dests (p, np)
        rw [← hudm]
        exact alookup_mem p np u.detected_moves hdmu
      have hpnp : p ≠ np :=
        nodup_split_ne_adds l₁ l₂ _ hnodup p (by simp [cpaths])
          (fun x h => Change.noConfusion h) np hnp_add
      cases hau : (is_move_authorized u p np).1 with
      | true =>
        rw [process_file_deleted, handle_deletion_detected u p np hdmu]
        exact (handle_detected_move_authorized u p np hpnp hau).2.2.2
      | false =>
        exfalso
        rw [hv, process_file_deleted, handle_deletion_detected u p np hdmu,
          handle_detected_move_denied u p np hau,
          denyRepairMove_corrections_made] at hvcorr
        cases hvcorr
    | none =>
      cases hru : alookup p u.registry.files with
      | none =>
        rw [process_file_deleted, handle_deletion_not_registered u p hdmu hru]
        exact hru
      | some e =>
        by_cases hauth : lowerStr u.commit_author = lowerStr e.owner ∨
            (lowerStr u.commit_author = lowerStr REPO_ADMIN ∧ e.admin_override = true)
        · rw [process_file_deleted, handle_deletion_authorized u p e hdmu hru hauth]
          show alookup p (eraseKey p u.registry.files) = none
          rw [alookup_eraseKey, if_pos rfl]
        · exfalso
          rw [hv, process_file_deleted, handle_deletion_denied u p e hdmu hru hauth,
            denyRepair_corrections_made] at hvcorr
          cases hvcorr
  | renamed o n =>
    show alookup o (processList v l₂).registry.files = none
    rw [hframe o (by simp [cpaths]) (fun x h => Change.noConfusion h), hv]
    cases hru : alookup o u.registry.files with
    | none =>
      have hon : o ≠ n := by
        have hnd := (nodup_split_facts l₁ l₂ _ hnodup o (by simp [cpaths])).2.2
        simp [cpaths] at hnd
        exact hnd
      rw [process_file_renamed, handle_rename_not_registered u o n hru,
        handle_new_file_files_frame u n o hon]
      exact hru
    | some e =>
      by_cases hauth : lowerStr u.commit_author = lowerStr e.owner ∨
          (lowerStr u.commit_author = lowerStr REPO_ADMIN ∧ e.admin_override = true)
      · rw [process_file_renamed, handle_rename_authorized u o n e hru hauth]
        show alookup o (eraseKey o (upsert n _ u.registry.files)) = none
        rw [alookup_eraseKey, if_pos rfl]
      · exfalso
        rw [hv, process_file_renamed, handle_rename_denied u o n e hru hauth,
          denyRepairMove_corrections_made] at hvcorr
        cases hvcorr
  | modified p =>
    show (alookup p (processList v l₂).tree).isSome = true →
      ∀ e, alookup p (processList v l₂).registry.files = some e →
        calculate_checksum (processList v l₂).tree p = e.checksum
    rw [hfintree, hvtree, hframe p (by simp [cpaths]) (fun x h => Change.noConfusion h)]
    intro hex e hfe
    rw [hv, process_file_modified, hutree, if_pos hex] at hfe
    cases hru : alookup p u.registry.files with
    | none =>
      rw [handle_modified_file_not_registered u p hru] at hfe
      have hnd : u.detected_moves.any (fun m => m.2 == p) = false := by
        cases hany : u.detected_moves.any (fun m => m.2 == p) with
        | false => rfl
        | true =>
          exfalso
          rw [List.any_eq_true] at hany
          obtain ⟨pr, hpr, hpr2⟩ := hany
          rw [beq_iff_eq] at hpr2
          exact (nodup_split_ne_adds l₁ l₂ _ hnodup p (by simp [cpaths])
            (fun x h => Change.noConfusion h) pr.2
            (hdm_dests pr (by rw [← hudm]; exact hpr))) hpr2.symm
      rw [handle_new_file_lookup u p hnd] at hfe
      injection hfe with hfe
      rw [← hfe, ← hutree]
    | some e0 =>
      by_cases hck : calculate_checksum u.tree p = e0.checksum
      · rw [handle_modified_file_noop u p e0 hru hck, hru] at hfe
        injection hfe with hfe
        subst hfe
        rw [← hck, hutree]
      · by_cases hauth : lowerStr u.commit_author = lowerStr e0.owner ∨
            (lowerStr u.commit_author = lowerStr REPO_ADMIN ∧ e0.admin_override = true)
        · rw [handle_modified_file_authorized u p e0 hru hck hauth] at hfe
          dsimp only at hfe
          rw [alookup_upsert, if_pos rfl] at hfe
          injection hfe with hfe
          rw [← hfe, ← hutree]
        · exfalso
          rw [hv, process_file_modified, hutree, if_pos hex,
            handle_modified_file_denied u p e0 hru hck hauth,
            denyRepair_corrections_made] at hvcorr
          cases hvcorr

theorem detectMovesLoop_all_none (files : List (RPath × FileRecord))
    (tree : List (RPath × String)) (dels adds : List RPath)
    (h : ∀ d ∈ dels, alookup d files = none) :
    detectMovesLoop files tree dels adds = [] := by
  induction dels generalizing adds with
  | nil => rfl
  | cons d ds ih =>
    rw [detectMovesLoop_cons_none files tree d ds adds (h d (by simp))]
    exact ih adds (fun d2 hd2 => h d2 (by simp [hd2]))

theorem detect_moves_mem (s : EnfState) (cf : List Change) (a b : RPath)
    (h : (a, b) ∈ detect_moves s cf) : a ∈ delsOf cf ∧ b ∈ addsOf cf := by
  simp only [detect_moves] at h
  split at h
  · cases h
  · exact detectMovesLoop_mem _ _ _ _ a b h

theorem detect_moves_empty (s : EnfState) (cf : List Change)
    (h : ∀ d ∈ delsOf cf, alookup d s.registry.files = none) :
    detect_moves s cf = [] := by
  simp only [detect_moves]
  split
  · rfl
  · exact detectMovesLoop_all_none _ _ _ _ h

theorem run_guard (meta : Option CommitMeta) (cf : List Change) (s : EnfState)
    (hg : is_guardian_commit meta = true) : run meta cf s = s := by
  unfold run
  rw [if_pos hg]

theorem run_empty_batch (meta : Option CommitMeta) (cf : List Change) (s : EnfState)
    (hg : ¬ is_guardian_commit meta = true) (hcf : cf.isEmpty = true) :
    run meta cf s = s := by
  unfold run
  rw [if_neg hg, if_pos hcf]

theorem run_eq (meta : Option CommitMeta) (cf : List Change) (s : EnfState)
    (hg : ¬ is_guardian_commit meta = true) (hcf : ¬ cf.isEmpty = true) :
    run meta cf s = cleanup_empty_folders
      (processList { s with detected_moves := detect_moves s cf } cf) := by
  unfold run
  rw [if_neg hg, if_neg hcf]

/-- C6 as stated is false: a completed run may itself be corrective, and then
the second run corrects again.  On `c6CounterState`, the first run denies
`bob`'s deletion of `alice`'s `del.md` and restores it (one correction, so the
run completes successfully with `corrections_made` set); the restored path is
still registered to `alice`, so the fresh second run over the repaired state
re-processes the same `deleted` change, denies it again, repairs again and
raises the correction flag again — not zero corrections. -/
theorem c6_counterexample :
    (run none [Change.deleted ["del.md"]] c6CounterState).corrections_made = true ∧
    (run none [Change.deleted ["del.md"]]
      (freshRun (run none [Change.deleted ["del.md"]] c6CounterState) "t2")
      ).corrections_made = true ∧
    (run none [Change.deleted ["del.md"]]
      (freshRun (run none [Change.deleted ["del.md"]] c6CounterState) "t2")
      ).files_corrected = [["del.md"]] := by
  decide

/-- C6 amended: idempotence holds for runs that made zero corrections.
Re-running the engine over the state such a run left behind (same trigger,
same batch, nothing changed in between, a fresh-started enforcer instance)
yields zero corrections: the second run raises no correction flag (so it
commits nothing), repairs no file, removes no folder in the hygiene pass, and
leaves the working tree exactly where the first run left it.  For corrective
first runs the property fails (`c6CounterState`): the same trigger
re-delivers the same changes, and a change denied then is denied again. -/
theorem c6_amended_clean_run_idempotent (meta : Option CommitMeta)
    (cf : List Change) (s0 : EnfState) (now2 : String)
    (hnodup : (batchPaths cf).Nodup)
    (h1 : (run meta cf s0).corrections_made = false) :
    (run meta cf (freshRun (run meta cf s0) now2)).corrections_made = false ∧
    (run meta cf (freshRun (run meta cf s0) now2)).files_corrected = [] ∧
    (run meta cf (freshRun (run meta cf s0) now2)).removedDirs = [] ∧
    (run meta cf (freshRun (run meta cf s0) now2)).tree = (run meta cf s0).tree := by
  by_cases hg : is_guardian_commit meta = true
  · rw [run_guard meta cf _ hg, run_guard meta cf s0 hg]
    exact ⟨rfl, rfl, rfl, rfl⟩
  · by_cases hcf : cf.isEmpty = true
    · rw [run_empty_batch meta cf _ hg hcf, run_empty_batch meta cf s0 hg hcf]
      exact ⟨rfl, rfl, rfl, rfl⟩
    · rw [run_eq meta cf s0 hg hcf] at h1 ⊢
      rw [run_eq meta cf _ hg hcf]
      set s' : EnfState := { s0 with detected_moves := detect_moves s0 cf } with hs'
      set w := processList s' cf with hw
      obtain ⟨hwcorr, hwdirs⟩ := cleanup_corrections_back w h1
      have hdm_dests : ∀ pr ∈ s'.detected_moves, pr.2 ∈ addsOf cf := by
        intro pr hpr
        have hpr2 : pr ∈ detect_moves s0 cf := hpr
        obtain ⟨p1, p2⟩ := pr
        exact (detect_moves_mem s0 cf p1 p2 hpr2).2
      have hOK1 := run1_establishes_ok s' cf hnodup hdm_dests hwcorr
      have hclean : cleanup_empty_folders w = { w with removedDirs := [] } :=
        cleanup_of_empty w hwdirs
      set s1 := cleanup_empty_folders w with hs1
      have hdels : ∀ d ∈ delsOf cf, alookup d w.registry.files = none := by
        intro d hd
        exact hOK1 (.deleted d) ((mem_delsOf cf d).mp hd)
      set t := freshRun s1 now2 with ht
      have htreg : t.registry = w.registry := by
        rw [ht, hs1]
        show (cleanup_empty_folders w).registry = w.registry
        exact cleanup_registry w
      have httree : t.tree = w.tree := by
        rw [ht, hs1]
        show (cleanup_empty_folders w).tree = w.tree
        exact cleanup_tree w
      have htdirs : t.emptyDirs = [] := by
        rw [ht]
        show s1.emptyDirs = []
        rw [hclean]
        exact hwdirs
      have hdm2 : detect_moves t cf = [] := by
        apply detect_moves_empty
        intro d hd
        rw [htreg]
        exact hdels d hd
      set t' : EnfState := { t with detected_moves := detect_moves t cf } with ht'
      have hdmt' : t'.detected_moves = [] := hdm2
      have hOK2 : ∀ c ∈ cf, okChange t'.registry.files t'.tree c := by
        intro c hc
        have h := hOK1 c hc
        have e1 : t'.registry.files = w.registry.files := by
          rw [ht']
          show t.registry.files = w.registry.files
          rw [htreg]
        have e2 : t'.tree = w.tree := by
          rw [ht']
          show t.tree = w.tree
          exact httree
        rw [e1, e2]
        exact h
      have hben := processList_benign t' cf hdmt' hnodup hOK2
      have hyc : (processList t' cf).corrections_made = false := by
        rw [hben.1, ht']
        show t.corrections_made = false
        rw [ht]
        rfl
      have hyf : (processList t' cf).files_corrected = [] := by
        rw [hben.2.1, ht']
        show t.files_corrected = []
        rw [ht]
        rfl
      have hyd : (processList t' cf).emptyDirs = [] := by
        rw [(processList_const t' cf).2.2.2.2, ht']
        show t.emptyDirs = []
        exact htdirs
      rw [cleanup_of_empty _ hyd]
      refine ⟨hyc, hyf, rfl, ?_⟩
      show (processList t' cf).tree = (cleanup_empty_folders w).tree
      rw [hben.2.2, cleanup_tree, ht']
      show t.tree = w.tree
      exact httree

/-- Closed instance of `c6_amended_clean_run_idempotent`: an authorized
edit needs no correction, and the immediate re-run over the resulting state
needs none either. -/
theorem c6_witness :
    (run none [.modified ["notes.md"]]
      (freshRun (run none [.modified ["notes.md"]]
        { commit_author := "alice", now := "t1",
          registry := ⟨[(["notes.md"], ⟨"alice", "t0", "t0", "d1", false⟩)], []⟩,
          tree := [(["notes.md"], "d2")], prevRev := [(["notes.md"], "d1")],
          corrections_made := false, files_corrected := [], registry_updated := false,
          detected_moves := [], emptyDirs := [], removedDirs := [] }) "t2")
      ).corrections_made = false ∧
    (run none [.modified ["notes.md"]]
      (freshRun (run none [.modified ["notes.md"]]
        { commit_author := "alice", now := "t1",
          registry := ⟨[(["notes.md"], ⟨"alice", "t0", "t0", "d1", false⟩)], []⟩,
          tree := [(["notes.md"], "d2")], prevRev := [(["notes.md"], "d1")],
          corrections_made := false, files_corrected := [], registry_updated := false,
          detected_moves := [], emptyDirs := [], removedDirs := [] }) "t2")
      ).files_corrected = [] := by
  have h := c6_amended_clean_run_idempotent none [.modified ["notes.md"]]
    { commit_author := "alice", now := "t1",
      registry := ⟨[(["notes.md"], ⟨"alice", "t0", "t0", "d1", false⟩)], []⟩,
      tree := [(["notes.md"], "d2")], prevRev := [(["notes.md"], "d1")],
      corrections_made := false, files_corrected := [], registry_updated := false,
      detected_moves := [], emptyDirs := [], removedDirs := [] }
    "t2" (by decide) (by decide)
  exact ⟨h.1, h.2.1⟩

end Ironverse
